import Mathlib

/-!
# Verification of the armature/bone classification core of a NIF importer

This file gives a shallow embedding of the bone classifier
(`Armature.mark_armatures_bones`, `populate_bone_tree`, `complete_bone_tree`,
`is_bone` in `io_scene_nif/modules/armature/armature_import.py`) and of the
bone length-inference pass (`Armature.fix_bone_lengths`), together with
theorems settling the specification claims about them.

The NIF node graph (supplied by the external format library) is embedded as a
finite graph on `Fin n` with a node-type tag, a children list, a parent link,
an optional skin descriptor, a host-supplied grouping-container oracle and a
node name.  Well-formedness (children have larger indices than their parent,
and parent links agree with children lists) is bundled into the structure:
the importer operates on a parsed scene tree in which `_parent` back links
are derived from the child references.

All recursive traversals are written with an explicit fuel argument
(structural recursion), and the fuel-free wrappers instantiate the fuel with
the number of nodes, which is proved sufficient; this keeps every definition
executable by kernel reduction.
-/

namespace NifScene

/-- Node-type tag of a scene-graph block.  `niNode` is a plain transform node
(`NifFormat.NiNode` that is not a LOD selector), `lodNode` is a LOD-selector
node (`NifFormat.NiLODNode`, a subclass of `NiNode`), `triGeom` is
triangle-based geometry (`NifFormat.NiTriBasedGeom`), and `other` covers
blocks that are not `NiAVObject`s (no spatial transform). -/
inductive NType where
  | niNode
  | lodNode
  | triGeom
  | other
deriving DecidableEq

/-- Skin descriptor of a skin-bearing geometry block (`NiSkinInstance`):
a skeleton-root reference and the list of influencing bone references,
entries of which may be null (pyffi issue 3114079). -/
structure Skin (n : Nat) where
  skeletonRoot : Fin n
  skinBones : List (Option (Fin n))
deriving DecidableEq

/-- The parsed NIF node graph handed to the classifier by the format
library.  `children i` models `get_refs()` restricted to child blocks,
`parentOf` models the `_parent` back link, `skin` models
`is_skin()`/`skin_instance`, `grouping` models the host classification
`nif_import.is_grouping_node`, and `nodeName` the block name used by
name-based lookup.  The two properties state that the graph is a parsed
scene tree: children are stored at larger indices than their parent
(no cycles), and the `_parent` link of a block is exactly the block that
lists it as a child. -/
structure Graph (n : Nat) where
  ntype : Fin n → NType
  children : Fin n → List (Fin n)
  parentOf : Fin n → Option (Fin n)
  skin : Fin n → Option (Skin n)
  grouping : Fin n → Bool
  nodeName : Fin n → String
  children_gt : ∀ i : Fin n, ∀ j ∈ children i, i < j
  consist : ∀ i j : Fin n, parentOf j = some i ↔ j ∈ children i

/-- `isinstance(block, NifFormat.NiNode)`: plain transform nodes and LOD
nodes (a subclass) both qualify. -/
def isNiNode {n : Nat} (g : Graph n) (x : Fin n) : Prop :=
  g.ntype x = NType.niNode ∨ g.ntype x = NType.lodNode

instance {n : Nat} (g : Graph n) (x : Fin n) : Decidable (isNiNode g x) := by
  unfold isNiNode; infer_instance

/-- `isinstance(block, NifFormat.NiAVObject)`: every block with a spatial
transform (plain nodes, LOD nodes, geometry). -/
def isAVObject {n : Nat} (g : Graph n) (x : Fin n) : Prop :=
  g.ntype x ≠ NType.other

instance {n : Nat} (g : Graph n) (x : Fin n) : Decidable (isAVObject g x) := by
  unfold isAVObject; infer_instance

/-- The operator-selected import policy (`NifOp.props.skeleton`). -/
inductive Policy where
  | everything
  | skeletonOnly
  | geometryOnly
deriving DecidableEq

/-- Import-run configuration visible to `mark_armatures_bones`:
the policy, the file version (`nif_import.data.version`), the basename of
the imported file (`os.path.basename(NifOp.props.filepath)`, the stdlib
basename extraction being outside the embedded core), and for
`GEOMETRY_ONLY` the name of the caller-selected armature object, the bone
names present on it, and the Blender-to-NIF bone-name transform.
The name transform (`armature.get_bone_name_for_nif`) lives outside the
embedded sources; modelled from the spec: a host-to-graph bone-name mapping
function, kept abstract here. -/
structure Config where
  policy : Policy
  version : Nat
  basename : String
  selectedName : String
  selectedBoneNames : List String
  boneNameToNif : String → String

/-- Errors of the classification pass.  The first three are
`nif_utils.NifError` raises (the spec's `StructureError`); `nameError`
models the Python `UnboundLocalError`/`NameError` raised when formatting the
incompatible-skeleton message in an invocation where the local
`b_armature_obj` was never bound; `attributeError` models the crash
`None._parent` in `complete_bone_tree`; `assertionError` the two debug
asserts there; `keyError` an access `dict_armatures[skelroot]` with a
missing key; `outOfFuel` never occurs for sufficient fuel. -/
inductive Err where
  | rootNotNiNode
  | armatureNotFound
  | incompatibleSkeleton
  | nameError
  | attributeError
  | assertionError
  | keyError
  | outOfFuel
deriving DecidableEq

/-- Whether an error is a `nif_utils.NifError` (the spec's
`StructureError`). -/
def Err.isStructureError : Err → Bool
  | Err.rootNotNiNode => true
  | Err.armatureNotFound => true
  | Err.incompatibleSkeleton => true
  | _ => false

/-- `str.lower()` on a basename: characterwise ASCII lowercasing (written
structurally so that it evaluates by kernel reduction; the basenames being
compared against are ASCII). -/
def strLower (s : String) : String := String.mk (s.data.map Char.toLower)

instance {α β : Type _} [DecidableEq α] [DecidableEq β] : DecidableEq (Except α β) :=
  fun x y =>
  match x, y with
  | Except.error e, Except.error f =>
    if h : e = f then isTrue (by rw [h]) else isFalse (by simp [h])
  | Except.ok v, Except.ok w =>
    if h : v = w then isTrue (by rw [h]) else isFalse (by simp [h])
  | Except.error _, Except.ok _ => isFalse (by simp)
  | Except.ok _, Except.error _ => isFalse (by simp)

/-- `self.dict_armatures`: an insertion-ordered mapping from armature-root
node to its ordered list of bone nodes, embedded as an association list
(Python dicts preserve insertion order). -/
abbrev St (n : Nat) := List (Fin n × List (Fin n))

/-- `skelroot in self.dict_armatures`. -/
def keyMem {n : Nat} (st : St n) (r : Fin n) : Prop :=
  ∃ e ∈ st, e.1 = r

instance {n : Nat} (st : St n) (r : Fin n) : Decidable (keyMem st r) := by
  unfold keyMem; infer_instance

/-- `self.dict_armatures[skelroot]` (defaulting to `[]` when the key is
absent; every call site guards the access, missing keys are reported as
`keyError` there). -/
def getB {n : Nat} : St n → Fin n → List (Fin n)
  | [], _ => []
  | e :: rest, r => if e.1 = r then e.2 else getB rest r

/-- `self.dict_armatures[skelroot].append(b)`. -/
def appendB {n : Nat} : St n → Fin n → Fin n → St n
  | [], _, _ => []
  | e :: rest, r, b => if e.1 = r then (e.1, e.2 ++ [b]) :: rest else e :: appendB rest r b

/-- `self.dict_armatures[skelroot] = []` on a fresh key (used where it is
guarded by a `not in` test, so insertion order puts the new key last). -/
def insertKey {n : Nat} (st : St n) (r : Fin n) : St n := st ++ [(r, [])]

/-- `self.dict_armatures[skelroot] = []` as an unconditional assignment
(resets the value when the key exists, appends the key otherwise). -/
def setKeyEmpty {n : Nat} : St n → Fin n → St n
  | [], r => [(r, [])]
  | e :: rest, r => if e.1 = r then (r, []) :: rest else e :: setKeyEmpty rest r

/-- Fueled pre-order traversal underlying pyffi's `block.tree()`: the block
itself followed by the trees of its children. -/
def treeF {n : Nat} (g : Graph n) : Nat → Fin n → List (Fin n)
  | 0, _ => []
  | fuel + 1, x => x :: (g.children x).flatMap (treeF g fuel)

/-- `block.tree()` with sufficient fuel. -/
def tree {n : Nat} (g : Graph n) (x : Fin n) : List (Fin n) := treeF g n x

/-- Fueled walk up the `_parent` chain collecting all proper ancestors. -/
def ancF {n : Nat} (g : Graph n) : Nat → Fin n → List (Fin n)
  | 0, _ => []
  | fuel + 1, b =>
    match g.parentOf b with
    | none => []
    | some p => p :: ancF g fuel p

/-- The proper ancestors of a node, nearest first. -/
def ancestors {n : Nat} (g : Graph n) (b : Fin n) : List (Fin n) := ancF g n b

/-- Fueled walk collecting the ancestors strictly between a node and a
designated root: parents are collected walking up until the root is reached
(the root excluded); a chain ending before reaching the root contributes
nothing further. -/
def betwF {n : Nat} (g : Graph n) : Nat → Fin n → Fin n → List (Fin n)
  | 0, _, _ => []
  | fuel + 1, b, r =>
    match g.parentOf b with
    | none => []
    | some p => if p = r then [] else p :: betwF g fuel p r

/-- The nodes strictly between a bone and a root on the parent chain. -/
def between {n : Nat} (g : Graph n) (b r : Fin n) : List (Fin n) := betwF g n b r

/-- Fueled embedding of `Armature.complete_bone_tree(bone, skelroot)`:
asserts the root key and the bone's membership, then walks up the `_parent`
chain registering every not-yet-registered parent until the root is reached.
A chain that runs out at a `None` parent before reaching the root crashes
(`None._parent` in the recursive call raises `AttributeError`; the list
mutation performed just before the crash is unobservable because the import
aborts). -/
def completeF {n : Nat} (g : Graph n) : Nat → St n → Fin n → Fin n → Except Err (St n)
  | 0, _, _, _ => Except.error Err.outOfFuel
  | fuel + 1, st, bone, r =>
    if ¬ keyMem st r then Except.error Err.assertionError
    else if bone ∉ getB st r then Except.error Err.assertionError
    else
      match g.parentOf bone with
      | none => Except.error Err.attributeError
      | some p =>
        if p = r then Except.ok st
        else
          let st1 := if p ∈ getB st r then st else appendB st r p
          completeF g fuel st1 p r

/-- `complete_bone_tree` with sufficient fuel. -/
def complete {n : Nat} (g : Graph n) (st : St n) (bone r : Fin n) : Except Err (St n) :=
  completeF g n st bone r

/-- The loop body of `Armature.populate_bone_tree`: skip the root itself,
non-`NiNode` blocks, LOD nodes and host-classified grouping nodes; register
everything else not already registered. -/
def popLoop {n : Nat} (g : Graph n) (r : Fin n) : St n → List (Fin n) → Except Err (St n)
  | st, [] => Except.ok st
  | st, b :: rest =>
    if b = r then popLoop g r st rest
    else if ¬ isNiNode g b then popLoop g r st rest
    else if g.ntype b = NType.lodNode then popLoop g r st rest
    else if g.grouping b then popLoop g r st rest
    else if ¬ keyMem st r then Except.error Err.keyError
    else if b ∈ getB st r then popLoop g r st rest
    else popLoop g r (appendB st r b) rest

/-- `Armature.populate_bone_tree(skelroot)`: fold the loop body over the
pre-order tree of the root. -/
def populate {n : Nat} (g : Graph n) (st : St n) (r : Fin n) : Except Err (St n) :=
  popLoop g r st (tree g r)

/-- Name-based node lookup `block.find(block_name=..., block_type=...)`.
pyffi lives outside the embedded sources; modelled from the spec:
"name-based node lookup within a subtree" — the first block in pre-order
whose name matches, optionally restricted to `NiNode`s. -/
def findByName {n : Nat} (g : Graph n) (x : Fin n) (nm : String) (requireNiNode : Bool) :
    Option (Fin n) :=
  (tree g x).find? (fun b => g.nodeName b = nm ∧ (requireNiNode → isNiNode g b))

/-- The per-bone-name loop of the `GEOMETRY_ONLY` armature-identification
branch: transform the Blender bone name, look the result up under the
armature root, and when found append it (without a membership guard) and
complete its bone tree. -/
def geoBones {n : Nat} (g : Graph n) (cfg : Config) (skelroot : Fin n) :
    St n → List String → Except Err (St n)
  | st, [] => Except.ok st
  | st, bn :: rest =>
    match findByName g skelroot (cfg.boneNameToNif bn) false with
    | none => geoBones g cfg skelroot st rest
    | some bb =>
      if ¬ keyMem st skelroot then Except.error Err.keyError
      else
        match complete g (appendB st skelroot bb) bb skelroot with
        | Except.error e => Except.error e
        | Except.ok st1 => geoBones g cfg skelroot st1 rest

/-- The `GEOMETRY_ONLY` armature-identification branch (taken only when the
armature dictionary is still empty): find the node named after the selected
armature object, install it as the sole armature root, and register the
name-matched bones. -/
def geoInit {n : Nat} (g : Graph n) (cfg : Config) (st : St n) (x : Fin n) :
    Except Err (St n) :=
  match findByName g x cfg.selectedName false with
  | none => Except.error Err.armatureNotFound
  | some skelroot => geoBones g cfg skelroot (setKeyEmpty st skelroot) cfg.selectedBoneNames

/-- The loop over `skininst.bones`: null entries are skipped; a non-null
bone is registered under the skeleton root unless already present, and its
bone tree is completed either way. -/
def skinBonesLoop {n : Nat} (g : Graph n) (r : Fin n) :
    St n → List (Option (Fin n)) → Except Err (St n)
  | st, [] => Except.ok st
  | st, none :: rest => skinBonesLoop g r st rest
  | st, some b :: rest =>
    if ¬ keyMem st r then Except.error Err.keyError
    else
      let st1 := if b ∈ getB st r then st else appendB st r b
      match complete g st1 b r with
      | Except.error e => Except.error e
      | Except.ok st2 => skinBonesLoop g r st2 rest

/-- The skin-scan section of `mark_armatures_bones`: when the current block
is skin-bearing geometry, resolve its skeleton root; under `EVERYTHING`
install it as an armature root if new; under `GEOMETRY_ONLY` an unknown
skeleton root triggers the incompatible-skeleton raise — whose message
formatting reads the local `b_armature_obj`, bound only in the invocation
that took the identification branch (`tookInit`), so elsewhere the raise
turns into an unbound-local crash.  Afterwards the skin bones are
registered and the whole subtree of the root is populated. -/
def skinScan {n : Nat} (g : Graph n) (cfg : Config) (tookInit : Bool) (st : St n)
    (x : Fin n) : Except Err (St n) :=
  if g.ntype x = NType.triGeom then
    match g.skin x with
    | none => Except.ok st
    | some sk =>
      let r := sk.skeletonRoot
      let step1 : Except Err (St n) :=
        if cfg.policy = Policy.everything then
          Except.ok (if keyMem st r then st else insertKey st r)
        else if cfg.policy = Policy.geometryOnly then
          if ¬ keyMem st r then
            Except.error (if tookInit then Err.incompatibleSkeleton else Err.nameError)
          else Except.ok st
        else Except.ok st
      match step1 with
      | Except.error e => Except.error e
      | Except.ok st1 =>
        match skinBonesLoop g r st1 sk.skinBones with
        | Except.error e => Except.error e
        | Except.ok st2 => populate g st2 r
  else Except.ok st

/-- The recursion over `get_refs()`: descend into every child that is a
spatial (`NiAVObject`) block, threading the armature dictionary. -/
def runChildren {n : Nat} (g : Graph n) (step : St n → Fin n → Except Err (St n)) :
    St n → List (Fin n) → Except Err (St n)
  | st, [] => Except.ok st
  | st, c :: rest =>
    if isAVObject g c then
      match step st c with
      | Except.error e => Except.error e
      | Except.ok st1 => runChildren g step st1 rest
    else runChildren g step st rest

/-- The condition of line 154: the skeleton branch is taken for the
`SKELETON_ONLY` policy, and also — for any policy — when the file version is
one of the two legacy values and the lowercased basename is `skeleton.nif`
or `skeletonbeast.nif`. -/
def skelCond (cfg : Config) : Prop :=
  cfg.policy = Policy.skeletonOnly ∨
    ((cfg.version = 0x14000005 ∨ cfg.version = 0x14020007) ∧
      (strLower cfg.basename = "skeleton.nif" ∨
        strLower cfg.basename = "skeletonbeast.nif"))

instance (cfg : Config) : Decidable (skelCond cfg) := by
  unfold skelCond; infer_instance

/-- The skeleton root selected by the skeleton branch: for the Morrowind
version a `Bip01` `NiNode` looked up by name (falling back to the block
itself), otherwise the block itself. -/
def skelrootOf {n : Nat} (g : Graph n) (cfg : Config) (x : Fin n) : Fin n :=
  if cfg.version = 0x04000002 then (findByName g x "Bip01" true).getD x else x

/-- The condition of line 178: the `GEOMETRY_ONLY` identification branch is
taken only while the armature dictionary is still empty. -/
def geoInitCond {n : Nat} (cfg : Config) (st : St n) : Prop :=
  cfg.policy = Policy.geometryOnly ∧ st = []

instance {n : Nat} (cfg : Config) (st : St n) : Decidable (geoInitCond cfg st) := by
  unfold geoInitCond; infer_instance

/-- Fueled embedding of `Armature.mark_armatures_bones(niBlock)`.
The skeleton branch (policy `SKELETON_ONLY`, or one of the two legacy file
versions combined with a basename that lowercases to `skeleton.nif` or
`skeletonbeast.nif`) checks that the block is a `NiNode`, picks the skeleton
root (a `Bip01` lookup for the Morrowind version, falling back to the block
itself), ensures its key and populates its subtree, then returns without
descending.  Every other invocation optionally runs the `GEOMETRY_ONLY`
identification branch (only while the dictionary is empty), scans the block
for a skin, and recurses into spatial children. -/
def markF {n : Nat} (g : Graph n) (cfg : Config) :
    Nat → St n → Fin n → Except Err (St n)
  | 0, _, _ => Except.error Err.outOfFuel
  | fuel + 1, st, x =>
    if skelCond cfg then
      if ¬ isNiNode g x then Except.error Err.rootNotNiNode
      else
        populate g
          (if keyMem st (skelrootOf g cfg x) then st
            else insertKey st (skelrootOf g cfg x))
          (skelrootOf g cfg x)
    else
      match (if geoInitCond cfg st then geoInit g cfg st x else Except.ok st) with
      | Except.error e => Except.error e
      | Except.ok st1 =>
        match skinScan g cfg (decide (geoInitCond cfg st)) st1 x with
        | Except.error e => Except.error e
        | Except.ok st2 =>
          runChildren g (fun s c => markF g cfg fuel s c) st2 (g.children x)

/-- One classification pass `mark_armatures_bones(root)` with sufficient
fuel. -/
def mark {n : Nat} (g : Graph n) (cfg : Config) (st : St n) (x : Fin n) :
    Except Err (St n) :=
  markF g cfg n st x

/-- `Armature.is_bone(niBlock)`: a null reference yields `False`; otherwise
the dictionary's bone lists are scanned, `True` is returned on a hit, and
falling off the loop returns Python `None` (embedded as `none`). -/
def is_bone {n : Nat} (st : St n) (niBlock : Option (Fin n)) : Option Bool :=
  match niBlock with
  | none => some false
  | some b => if ∃ e ∈ st, b ∈ e.2 then some true else none

/-! ## Lemmas about the dictionary operations -/

section StLemmas

variable {n : Nat}

theorem keyMem_iff_fst_mem {st : St n} {r : Fin n} :
    keyMem st r ↔ r ∈ st.map Prod.fst := by
  simp [keyMem, List.mem_map]

theorem getB_eq_nil_of_not_keyMem {st : St n} {r : Fin n} (h : ¬ keyMem st r) :
    getB st r = [] := by
  induction st with
  | nil => rfl
  | cons e rest ih =>
    rw [getB]
    split
    · exact absurd ⟨e, by simp, by assumption⟩ h
    · exact ih (fun ⟨e', he', hr⟩ => h ⟨e', by simp [he'], hr⟩)

theorem appendB_map_fst (st : St n) (r b : Fin n) :
    (appendB st r b).map Prod.fst = st.map Prod.fst := by
  induction st with
  | nil => rfl
  | cons e rest ih =>
    rw [appendB]
    split <;> simp [ih]

theorem keyMem_appendB {st : St n} {r b r' : Fin n} :
    keyMem (appendB st r b) r' ↔ keyMem st r' := by
  rw [keyMem_iff_fst_mem, keyMem_iff_fst_mem, appendB_map_fst]

theorem appendB_of_not_keyMem {st : St n} {r : Fin n} (h : ¬ keyMem st r) (b : Fin n) :
    appendB st r b = st := by
  induction st with
  | nil => rfl
  | cons e rest ih =>
    rw [appendB]
    split
    · exact absurd ⟨e, by simp, by assumption⟩ h
    · rw [ih (fun ⟨e', he', hr⟩ => h ⟨e', by simp [he'], hr⟩)]

theorem getB_appendB_same {st : St n} {r : Fin n} (h : keyMem st r) (b : Fin n) :
    getB (appendB st r b) r = getB st r ++ [b] := by
  induction st with
  | nil => exact absurd h (by simp [keyMem])
  | cons e rest ih =>
    rw [appendB]
    by_cases he : e.1 = r
    · simp [he, getB]
    · simp only [if_neg he, getB, if_neg he]
      rcases h with ⟨e', he', hr⟩
      rcases List.mem_cons.mp he' with rfl | hmem
      · exact absurd hr he
      · exact ih ⟨e', hmem, hr⟩

theorem getB_appendB_ne {st : St n} {r b r' : Fin n} (h : r' ≠ r) :
    getB (appendB st r b) r' = getB st r' := by
  induction st with
  | nil => rfl
  | cons e rest ih =>
    rw [appendB]
    by_cases he : e.1 = r
    · rw [if_pos he, getB, getB, if_neg (fun hh : e.1 = r' => h (hh ▸ he)),
        if_neg (fun hh : e.1 = r' => h (hh ▸ he))]
    · rw [if_neg he, getB, getB]
      split
      · rfl
      · exact ih

theorem mem_getB_appendB {st : St n} {r b r' b' : Fin n} (h : b' ∈ getB st r') :
    b' ∈ getB (appendB st r b) r' := by
  by_cases hr : r' = r
  · subst hr
    by_cases hk : keyMem st r'
    · rw [getB_appendB_same hk]; exact List.mem_append_left _ h
    · rw [appendB_of_not_keyMem hk]; exact h
  · rw [getB_appendB_ne hr]; exact h

theorem insertKey_map_fst (st : St n) (r : Fin n) :
    (insertKey st r).map Prod.fst = st.map Prod.fst ++ [r] := by
  simp [insertKey]

theorem keyMem_insertKey {st : St n} {r r' : Fin n} :
    keyMem (insertKey st r) r' ↔ keyMem st r' ∨ r' = r := by
  rw [keyMem_iff_fst_mem, keyMem_iff_fst_mem, insertKey_map_fst]
  simp [eq_comm]

theorem getB_insertKey_of_keyMem {st : St n} {r r' : Fin n} (h : keyMem st r') :
    getB (insertKey st r) r' = getB st r' := by
  induction st with
  | nil => exact absurd h (by simp [keyMem])
  | cons e rest ih =>
    rw [insertKey, List.cons_append, getB, getB]
    split
    · rfl
    · rcases h with ⟨e', he', hr⟩
      rcases List.mem_cons.mp he' with rfl | hmem
      · simp_all
      · exact ih ⟨e', hmem, hr⟩

theorem getB_insertKey_of_not_keyMem {st : St n} {r r' : Fin n} (h : ¬ keyMem st r') :
    getB (insertKey st r) r' = [] := by
  induction st with
  | nil =>
    simp only [insertKey, List.nil_append, getB]
    split
    · rfl
    · rfl
  | cons e rest ih =>
    rw [insertKey, List.cons_append, getB]
    split
    · exact absurd ⟨e, by simp, by assumption⟩ h
    · exact ih (fun ⟨e', he', hr⟩ => h ⟨e', by simp [he'], hr⟩)

theorem mem_getB_insertKey {st : St n} {r r' b : Fin n} (h : b ∈ getB st r') :
    b ∈ getB (insertKey st r) r' := by
  by_cases hk : keyMem st r'
  · rwa [getB_insertKey_of_keyMem hk]
  · rw [getB_eq_nil_of_not_keyMem hk] at h
    exact absurd h (List.not_mem_nil b)

/-- Growth order on dictionary states: keys and bone memberships only
accumulate. -/
def MemLe (st st' : St n) : Prop :=
  (∀ r, keyMem st r → keyMem st' r) ∧ ∀ r b : Fin n, b ∈ getB st r → b ∈ getB st' r

theorem MemLe.rfl {st : St n} : MemLe st st := ⟨fun _ h => h, fun _ _ h => h⟩

theorem MemLe.trans {s1 s2 s3 : St n} (h1 : MemLe s1 s2) (h2 : MemLe s2 s3) :
    MemLe s1 s3 :=
  ⟨fun r h => h2.1 r (h1.1 r h), fun r b h => h2.2 r b (h1.2 r b h)⟩

theorem MemLe.appendB {st : St n} (r b : Fin n) : MemLe st (appendB st r b) :=
  ⟨fun r' h => keyMem_appendB.mpr h, fun _ _ h => mem_getB_appendB h⟩

theorem MemLe.insertKey {st : St n} (r : Fin n) : MemLe st (insertKey st r) :=
  ⟨fun r' h => keyMem_insertKey.mpr (Or.inl h), fun _ _ h => mem_getB_insertKey h⟩

theorem keyMem_of_ne_nil {st : St n} (h : st ≠ []) : ∃ r, keyMem st r := by
  cases st with
  | nil => exact absurd (Eq.refl _) h
  | cons e rest => exact ⟨e.1, ⟨e, by simp, Eq.refl e.1⟩⟩

end StLemmas

/-! ## Lemmas about the graph traversals -/

section GraphLemmas

variable {n : Nat} {g : Graph n}

theorem flatMap_congr {α β : Type _} {l : List α} {f f' : α → List β}
    (h : ∀ a ∈ l, f a = f' a) : l.flatMap f = l.flatMap f' := by
  induction l with
  | nil => rfl
  | cons x xs ih =>
    simp only [List.flatMap_cons]
    rw [h x (by simp), ih (fun a ha => h a (by simp [ha]))]

theorem parent_lt {i j : Fin n} (h : g.parentOf j = some i) : i < j :=
  g.children_gt i j ((g.consist i j).mp h)

theorem treeF_stable : ∀ (f1 f2 : Nat) (x : Fin n), n - x.val ≤ f1 → n - x.val ≤ f2 →
    treeF g f1 x = treeF g f2 x := by
  intro f1
  induction f1 with
  | zero =>
    intro f2 x h1 _
    have := x.isLt
    exact absurd h1 (by omega)
  | succ f1 ih =>
    intro f2 x h1 h2
    have hx := x.isLt
    obtain ⟨f2', rfl⟩ : ∃ k, f2 = k + 1 := ⟨f2 - 1, by omega⟩
    rw [treeF, treeF]
    congr 1
    apply flatMap_congr
    intro c hc
    have hcx : x.val < c.val := g.children_gt x c hc
    have hc2 := c.isLt
    exact ih f2' c (by omega) (by omega)

theorem tree_eq (x : Fin n) : tree g x = x :: (g.children x).flatMap (fun c => tree g c) := by
  unfold tree
  obtain ⟨m, rfl⟩ : ∃ m, n = m + 1 := ⟨n - 1, by have := x.pos; omega⟩
  rw [treeF]
  congr 1
  apply flatMap_congr
  intro c hc
  have hcx : x.val < c.val := g.children_gt x c hc
  have hc2 := c.isLt
  exact treeF_stable m (m + 1) c (by omega) (by omega)

theorem mem_tree_self (x : Fin n) : x ∈ tree g x := by
  rw [tree_eq]; exact List.mem_cons_self x _

/-- A member of a subtree other than the subtree root has a parent, which is
the subtree root or again a member of the subtree. -/
theorem mem_treeF_parent : ∀ (fuel : Nat) (x b : Fin n), b ∈ treeF g fuel x → b ≠ x →
    ∃ p, g.parentOf b = some p ∧ (p = x ∨ p ∈ treeF g fuel x) := by
  intro fuel
  induction fuel with
  | zero => intro x b hb _; exact absurd hb (List.not_mem_nil b)
  | succ fuel ih =>
    intro x b hb hne
    rw [treeF] at hb
    rcases List.mem_cons.mp hb with rfl | hb
    · exact absurd (Eq.refl b) hne
    · rcases List.mem_flatMap.mp hb with ⟨c, hc, hbc⟩
      have hfuel : fuel ≠ 0 := by
        intro h0
        rw [h0] at hbc
        exact absurd hbc (List.not_mem_nil b)
      obtain ⟨fl, rfl⟩ : ∃ k, fuel = k + 1 := ⟨fuel - 1, by omega⟩
      by_cases hbceq : b = c
      · subst hbceq
        exact ⟨x, (g.consist x b).mpr hc, Or.inl (Eq.refl x)⟩
      · rcases ih c b hbc hbceq with ⟨p, hp, hpc⟩
        refine ⟨p, hp, Or.inr ?_⟩
        rw [treeF]
        rcases hpc with rfl | hpc
        · refine List.mem_cons_of_mem _ (List.mem_flatMap.mpr ⟨p, hc, ?_⟩)
          rw [treeF]
          exact List.mem_cons_self _ _
        · exact List.mem_cons_of_mem _ (List.mem_flatMap.mpr ⟨c, hc, hpc⟩)

theorem mem_tree_parent {x b : Fin n} (hb : b ∈ tree g x) (hne : b ≠ x) :
    ∃ p, g.parentOf b = some p ∧ (p = x ∨ p ∈ tree g x) :=
  mem_treeF_parent n x b hb hne

theorem ancF_stable : ∀ (f1 f2 : Nat) (b : Fin n), b.val < f1 → b.val < f2 →
    ancF g f1 b = ancF g f2 b := by
  intro f1
  induction f1 with
  | zero => intro f2 b h1 _; exact absurd h1 (by omega)
  | succ f1 ih =>
    intro f2 b h1 h2
    obtain ⟨f2', rfl⟩ : ∃ k, f2 = k + 1 := ⟨f2 - 1, by omega⟩
    cases hp : g.parentOf b with
    | none => simp only [ancF, hp]
    | some p =>
      have hlt : p.val < b.val := parent_lt hp
      simp only [ancF, hp]
      rw [ih f2' p (by omega) (by omega)]

theorem ancestors_eq_none {b : Fin n} (h : g.parentOf b = none) : ancestors g b = [] := by
  unfold ancestors
  obtain ⟨m, rfl⟩ : ∃ m, n = m + 1 := ⟨n - 1, by have := b.pos; omega⟩
  simp only [ancF, h]

theorem ancestors_eq_some {b p : Fin n} (h : g.parentOf b = some p) :
    ancestors g b = p :: ancestors g p := by
  have hlt : p.val < b.val := parent_lt h
  have hb := b.isLt
  unfold ancestors
  obtain ⟨m, rfl⟩ : ∃ m, n = m + 1 := ⟨n - 1, by omega⟩
  simp only [ancF, h]
  congr 1
  exact ancF_stable m (m + 1) p (by omega) (by omega)

theorem mem_ancestors_lt : ∀ (fuel : Nat) (b : Fin n), b.val < fuel →
    ∀ a ∈ ancestors g b, a < b := by
  intro fuel
  induction fuel with
  | zero => intro b h1; exact absurd h1 (by omega)
  | succ fuel ih =>
    intro b h1 a ha
    cases hp : g.parentOf b with
    | none => rw [ancestors_eq_none hp] at ha; exact absurd ha (List.not_mem_nil a)
    | some p =>
      have hlt : p.val < b.val := parent_lt hp
      rw [ancestors_eq_some hp] at ha
      rcases List.mem_cons.mp ha with rfl | ha
      · exact parent_lt hp
      · exact lt_trans (ih p (by omega) a ha) (parent_lt hp)

theorem ancestors_lt {b a : Fin n} (ha : a ∈ ancestors g b) : a < b :=
  mem_ancestors_lt n b b.isLt a ha

theorem not_mem_ancestors_self (b : Fin n) : b ∉ ancestors g b :=
  fun h => absurd (ancestors_lt h) (lt_irrefl b)

/-- The proper-ancestor chain is linear: two ancestors of the same node are
equal or one is an ancestor of the other. -/
theorem ancestors_linear : ∀ (fuel : Nat) (b : Fin n), b.val < fuel →
    ∀ a1 a2 : Fin n, a1 ∈ ancestors g b → a2 ∈ ancestors g b →
    a1 = a2 ∨ a1 ∈ ancestors g a2 ∨ a2 ∈ ancestors g a1 := by
  intro fuel
  induction fuel with
  | zero => intro b h1; exact absurd h1 (by omega)
  | succ fuel ih =>
    intro b h1 a1 a2 h2 h3
    cases hp : g.parentOf b with
    | none => rw [ancestors_eq_none hp] at h2; exact absurd h2 (List.not_mem_nil a1)
    | some p =>
      have hlt : p.val < b.val := parent_lt hp
      rw [ancestors_eq_some hp] at h2 h3
      rcases List.mem_cons.mp h2 with rfl | h2
      · rcases List.mem_cons.mp h3 with rfl | h3
        · exact Or.inl (Eq.refl _)
        · exact Or.inr (Or.inr h3)
      · rcases List.mem_cons.mp h3 with rfl | h3
        · exact Or.inr (Or.inl h2)
        · exact ih p (by omega) a1 a2 h2 h3

theorem betwF_stable : ∀ (f1 f2 : Nat) (b r : Fin n), b.val < f1 → b.val < f2 →
    betwF g f1 b r = betwF g f2 b r := by
  intro f1
  induction f1 with
  | zero => intro f2 b r h1 _; exact absurd h1 (by omega)
  | succ f1 ih =>
    intro f2 b r h1 h2
    obtain ⟨f2', rfl⟩ : ∃ k, f2 = k + 1 := ⟨f2 - 1, by omega⟩
    cases hp : g.parentOf b with
    | none => simp only [betwF, hp]
    | some p =>
      have hlt : p.val < b.val := parent_lt hp
      simp only [betwF, hp]
      by_cases hpr : p = r
      · rw [if_pos hpr, if_pos hpr]
      · rw [if_neg hpr, if_neg hpr, ih f2' p r (by omega) (by omega)]

theorem between_eq_none {b r : Fin n} (h : g.parentOf b = none) : between g b r = [] := by
  unfold between
  obtain ⟨m, rfl⟩ : ∃ m, n = m + 1 := ⟨n - 1, by have := b.pos; omega⟩
  simp only [betwF, h]

theorem between_eq_some {b p r : Fin n} (h : g.parentOf b = some p) :
    between g b r = if p = r then [] else p :: between g p r := by
  have hlt : p.val < b.val := parent_lt h
  have hb := b.isLt
  unfold between
  obtain ⟨m, rfl⟩ : ∃ m, n = m + 1 := ⟨n - 1, by omega⟩
  simp only [betwF, h]
  by_cases hpr : p = r
  · rw [if_pos hpr, if_pos hpr]
  · rw [if_neg hpr, if_neg hpr]
    congr 1
    exact betwF_stable m (m + 1) p r (by omega) (by omega)

theorem mem_between_ancestors : ∀ (fuel : Nat) (b : Fin n), b.val < fuel →
    ∀ r a : Fin n, a ∈ between g b r → a ∈ ancestors g b := by
  intro fuel
  induction fuel with
  | zero => intro b h1; exact absurd h1 (by omega)
  | succ fuel ih =>
    intro b h1 r a ha
    cases hp : g.parentOf b with
    | none => rw [between_eq_none hp] at ha; exact absurd ha (List.not_mem_nil a)
    | some p =>
      have hlt : p.val < b.val := parent_lt hp
      rw [between_eq_some hp] at ha
      rw [ancestors_eq_some hp]
      by_cases hpr : p = r
      · rw [if_pos hpr] at ha; exact absurd ha (List.not_mem_nil a)
      · rw [if_neg hpr] at ha
        rcases List.mem_cons.mp ha with rfl | ha
        · exact List.mem_cons_self _ _
        · exact List.mem_cons_of_mem _ (ih p (by omega) r a ha)

/-- The between-chain of a node strictly between `b` and `r` is contained in
the between-chain of `b`. -/
theorem between_sub : ∀ (fuel : Nat) (b : Fin n), b.val < fuel →
    ∀ r a : Fin n, a ∈ between g b r → ∀ a' ∈ between g a r, a' ∈ between g b r := by
  intro fuel
  induction fuel with
  | zero => intro b h1; exact absurd h1 (by omega)
  | succ fuel ih =>
    intro b h1 r a ha a' ha'
    cases hp : g.parentOf b with
    | none => rw [between_eq_none hp] at ha; exact absurd ha (List.not_mem_nil a)
    | some p =>
      have hlt : p.val < b.val := parent_lt hp
      rw [between_eq_some hp] at ha ⊢
      by_cases hpr : p = r
      · rw [if_pos hpr] at ha; exact absurd ha (List.not_mem_nil a)
      · rw [if_neg hpr] at ha ⊢
        rcases List.mem_cons.mp ha with rfl | ha
        · exact List.mem_cons_of_mem _ ha'
        · exact List.mem_cons_of_mem _ (ih p (by omega) r a ha a' ha')

/-- `x` is an ancestor of every proper member of its tree. -/
theorem tree_ancestor : ∀ (fuel : Nat) (b : Fin n), b.val < fuel →
    ∀ x : Fin n, b ∈ tree g x → b ≠ x → x ∈ ancestors g b := by
  intro fuel
  induction fuel with
  | zero => intro b h1; exact absurd h1 (by omega)
  | succ fuel ih =>
    intro b h1 x hb hne
    rcases mem_tree_parent hb hne with ⟨p, hp, hpx⟩
    have hlt : p.val < b.val := parent_lt hp
    rw [ancestors_eq_some hp]
    rcases hpx with rfl | hpx
    · exact List.mem_cons_self _ _
    · by_cases hpeq : p = x
      · subst hpeq; exact List.mem_cons_self _ _
      · exact List.mem_cons_of_mem _ (ih p (by omega) x hpx hpeq)

/-- The between-chain of a proper tree member stays inside the tree. -/
theorem tree_of_between : ∀ (fuel : Nat) (b : Fin n), b.val < fuel →
    ∀ r a : Fin n, b ∈ tree g r → b ≠ r → a ∈ between g b r → a ∈ tree g r := by
  intro fuel
  induction fuel with
  | zero => intro b h1; exact absurd h1 (by omega)
  | succ fuel ih =>
    intro b h1 r a hb hne ha
    rcases mem_tree_parent hb hne with ⟨p, hp, hpr⟩
    have hlt : p.val < b.val := parent_lt hp
    rw [between_eq_some hp] at ha
    by_cases hpeq : p = r
    · rw [if_pos hpeq] at ha; exact absurd ha (List.not_mem_nil a)
    · rw [if_neg hpeq] at ha
      rcases hpr with rfl | hpr
      · exact absurd (Eq.refl p) hpeq
      · rcases List.mem_cons.mp ha with rfl | ha
        · exact hpr
        · exact ih p (by omega) r a hpr hpeq ha

end GraphLemmas

/-! ## Lemmas about `complete_bone_tree` -/

section CompleteLemmas

variable {n : Nat} {g : Graph n}

theorem completeF_ok_elim : ∀ (fuel : Nat) (st : St n) (b r : Fin n) (st' : St n),
    completeF g fuel st b r = Except.ok st' →
    ∃ (hk : keyMem st r) (hb : b ∈ getB st r) (p : Fin n),
      g.parentOf b = some p ∧
      ((p = r ∧ st' = st) ∨
        (p ≠ r ∧
          completeF g (fuel - 1) (if p ∈ getB st r then st else appendB st r p) p r =
            Except.ok st')) := by
  intro fuel st b r st' h
  match fuel with
  | 0 => exact Except.noConfusion h
  | fuel + 1 =>
    rw [completeF] at h
    by_cases hk : keyMem st r
    · rw [if_neg (not_not_intro hk)] at h
      by_cases hb : b ∈ getB st r
      · rw [if_neg (not_not_intro hb)] at h
        cases hp : g.parentOf b with
        | none => rw [hp] at h; exact Except.noConfusion h
        | some p =>
          rw [hp] at h
          simp only at h
          by_cases hpr : p = r
          · rw [if_pos hpr] at h
            exact ⟨hk, hb, p, Eq.refl _, Or.inl ⟨hpr, (Except.ok.injEq _ _ ▸ h).symm⟩⟩
          · rw [if_neg hpr] at h
            exact ⟨hk, hb, p, Eq.refl _, Or.inr ⟨hpr, h⟩⟩
      · rw [if_pos hb] at h; exact Except.noConfusion h
    · rw [if_pos hk] at h; exact Except.noConfusion h

theorem completeF_keys : ∀ (fuel : Nat) (st : St n) (b r : Fin n) (st' : St n),
    completeF g fuel st b r = Except.ok st' → ∀ r', (keyMem st' r' ↔ keyMem st r') := by
  intro fuel
  induction fuel with
  | zero => intro st b r st' h; exact Except.noConfusion h
  | succ fuel ih =>
    intro st b r st' h r'
    rcases completeF_ok_elim (fuel + 1) st b r st' h with ⟨hk, hb, p, hp, hcase⟩
    rcases hcase with ⟨_, rfl⟩ | ⟨hpr, hrec⟩
    · exact Iff.rfl
    · refine (ih _ p r st' hrec r').trans ?_
      split
      · exact Iff.rfl
      · exact keyMem_appendB

theorem completeF_getB_ne : ∀ (fuel : Nat) (st : St n) (b r : Fin n) (st' : St n),
    completeF g fuel st b r = Except.ok st' →
    ∀ r', r' ≠ r → getB st' r' = getB st r' := by
  intro fuel
  induction fuel with
  | zero => intro st b r st' h; exact Except.noConfusion h
  | succ fuel ih =>
    intro st b r st' h r' hne
    rcases completeF_ok_elim (fuel + 1) st b r st' h with ⟨hk, hb, p, hp, hcase⟩
    rcases hcase with ⟨_, rfl⟩ | ⟨hpr, hrec⟩
    · rfl
    · refine (ih _ _ r st' hrec r' hne).trans ?_
      split
      · rfl
      · exact getB_appendB_ne hne

theorem completeF_sub : ∀ (fuel : Nat) (st : St n) (b r : Fin n) (st' : St n),
    completeF g fuel st b r = Except.ok st' →
    ∀ r' a, a ∈ getB st r' → a ∈ getB st' r' := by
  intro fuel
  induction fuel with
  | zero => intro st b r st' h; exact Except.noConfusion h
  | succ fuel ih =>
    intro st b r st' h r' a ha
    rcases completeF_ok_elim (fuel + 1) st b r st' h with ⟨hk, hb, p, hp, hcase⟩
    rcases hcase with ⟨_, rfl⟩ | ⟨hpr, hrec⟩
    · exact ha
    · refine ih _ _ r st' hrec r' a ?_
      split
      · exact ha
      · exact mem_getB_appendB ha

theorem completeF_memle {fuel : Nat} {st : St n} {b r : Fin n} {st' : St n}
    (h : completeF g fuel st b r = Except.ok st') : MemLe st st' :=
  ⟨fun r' hk => (completeF_keys fuel st b r st' h r').mpr hk,
    fun r' a ha => completeF_sub fuel st b r st' h r' a ha⟩

theorem completeF_new : ∀ (fuel : Nat) (st : St n) (b r : Fin n) (st' : St n),
    b.val < fuel →
    completeF g fuel st b r = Except.ok st' →
    ∀ a ∈ getB st' r, a ∈ getB st r ∨ a ∈ between g b r := by
  intro fuel
  induction fuel with
  | zero => intro st b r st' hf h; exact Except.noConfusion h
  | succ fuel ih =>
    intro st b r st' hf h a ha
    rcases completeF_ok_elim (fuel + 1) st b r st' h with ⟨hk, hb, p, hp, hcase⟩
    have hlt : p.val < b.val := parent_lt hp
    rcases hcase with ⟨hpr, rfl⟩ | ⟨hpr, hrec⟩
    · exact Or.inl ha
    · rw [between_eq_some hp, if_neg hpr]
      rcases ih _ p r st' (by omega) hrec a ha with ha' | ha'
      · by_cases hpg : p ∈ getB st r
        · rw [if_pos hpg] at ha'
          exact Or.inl ha'
        · rw [if_neg hpg, getB_appendB_same hk] at ha'
          rcases List.mem_append.mp ha' with ha' | ha'
          · exact Or.inl ha'
          · rcases List.mem_singleton.mp ha' with rfl
            exact Or.inr (List.mem_cons_self _ _)
      · exact Or.inr (List.mem_cons_of_mem _ ha')

theorem completeF_between : ∀ (fuel : Nat) (st : St n) (b r : Fin n) (st' : St n),
    b.val < fuel →
    completeF g fuel st b r = Except.ok st' →
    ∀ a ∈ between g b r, a ∈ getB st' r := by
  intro fuel
  induction fuel with
  | zero => intro st b r st' hf h; exact absurd hf (by omega)
  | succ fuel ih =>
    intro st b r st' hf h a ha
    rcases completeF_ok_elim (fuel + 1) st b r st' h with ⟨hk, hb, p, hp, hcase⟩
    have hlt : p.val < b.val := parent_lt hp
    rw [between_eq_some hp] at ha
    rcases hcase with ⟨hpr, rfl⟩ | ⟨hpr, hrec⟩
    · rw [if_pos hpr] at ha
      exact absurd ha (List.not_mem_nil a)
    · rw [if_neg hpr] at ha
      rcases List.mem_cons.mp ha with rfl | ha
      · refine completeF_sub _ _ a r st' hrec r a ?_
        by_cases hpg : a ∈ getB st r
        · rw [if_pos hpg]; exact hpg
        · rw [if_neg hpg, getB_appendB_same hk]
          exact List.mem_append_right _ (List.mem_singleton_self a)
      · exact ih _ p r st' (by omega) hrec a ha

theorem completeF_ancestor : ∀ (fuel : Nat) (st : St n) (b r : Fin n) (st' : St n),
    b.val < fuel →
    completeF g fuel st b r = Except.ok st' →
    r ∈ ancestors g b := by
  intro fuel
  induction fuel with
  | zero => intro st b r st' hf h; exact absurd hf (by omega)
  | succ fuel ih =>
    intro st b r st' hf h
    rcases completeF_ok_elim (fuel + 1) st b r st' h with ⟨hk, hb, p, hp, hcase⟩
    have hlt : p.val < b.val := parent_lt hp
    rw [ancestors_eq_some hp]
    rcases hcase with ⟨rfl, _⟩ | ⟨hpr, hrec⟩
    · exact List.mem_cons_self _ _
    · exact List.mem_cons_of_mem _ (ih _ p r st' (by omega) hrec)

theorem completeF_nodup : ∀ (fuel : Nat) (st : St n) (b r : Fin n) (st' : St n),
    completeF g fuel st b r = Except.ok st' →
    (getB st r).Nodup → (getB st' r).Nodup := by
  intro fuel
  induction fuel with
  | zero => intro st b r st' h; exact Except.noConfusion h
  | succ fuel ih =>
    intro st b r st' h hnd
    rcases completeF_ok_elim (fuel + 1) st b r st' h with ⟨hk, hb, p, hp, hcase⟩
    rcases hcase with ⟨_, rfl⟩ | ⟨hpr, hrec⟩
    · exact hnd
    · refine ih _ p r st' hrec ?_
      by_cases hpg : p ∈ getB st r
      · rw [if_pos hpg]; exact hnd
      · rw [if_neg hpg, getB_appendB_same hk]
        exact List.Nodup.append hnd (List.nodup_singleton p)
          (by simpa using fun hin => hpg hin)

theorem completeF_noop : ∀ (fuel : Nat) (st : St n) (b r : Fin n),
    b.val < fuel →
    keyMem st r → b ∈ getB st r → r ∈ ancestors g b →
    (∀ a ∈ between g b r, a ∈ getB st r) →
    completeF g fuel st b r = Except.ok st := by
  intro fuel
  induction fuel with
  | zero => intro st b r hf; exact absurd hf (by omega)
  | succ fuel ih =>
    intro st b r hf hk hb hanc hbetw
    rw [completeF, if_neg (not_not_intro hk), if_neg (not_not_intro hb)]
    cases hp : g.parentOf b with
    | none => rw [ancestors_eq_none hp] at hanc; exact absurd hanc (List.not_mem_nil r)
    | some p =>
      simp only
      have hlt : p.val < b.val := parent_lt hp
      by_cases hpr : p = r
      · rw [if_pos hpr]
      · rw [if_neg hpr]
        have hpmem : p ∈ getB st r := by
          refine hbetw p ?_
          rw [between_eq_some hp, if_neg hpr]
          exact List.mem_cons_self _ _
        rw [if_pos hpmem]
        refine ih st p r (by omega) hk hpmem ?_ ?_
        · rw [ancestors_eq_some hp] at hanc
          rcases List.mem_cons.mp hanc with rfl | hanc
          · exact absurd (Eq.refl r) hpr
          · exact hanc
        · intro a ha
          refine hbetw a ?_
          rw [between_eq_some hp, if_neg hpr]
          exact List.mem_cons_of_mem _ ha

/-- Re-running `complete_bone_tree` on any state that has accumulated at
least the memberships of a previous successful run returns that state
unchanged. -/
theorem completeF_again {fuel : Nat} {st : St n} {b r : Fin n} {st' s : St n}
    (hf : b.val < fuel)
    (h : completeF g fuel st b r = Except.ok st')
    (hle : MemLe st' s) (hk : keyMem s r) (hb : b ∈ getB s r) :
    completeF g fuel s b r = Except.ok s := by
  refine completeF_noop fuel s b r hf hk hb
    (completeF_ancestor fuel st b r st' hf h) ?_
  intro a ha
  exact hle.2 r a (completeF_between fuel st b r st' hf h a ha)

/-- The fuel-free wrapper of `completeF_again`, phrased on `complete`. -/
theorem complete_again {st : St n} {b r : Fin n} {st' s : St n}
    (h : complete g st b r = Except.ok st')
    (hle : MemLe st' s) (hk : keyMem s r) (hb : b ∈ getB s r) :
    complete g s b r = Except.ok s :=
  completeF_again b.isLt h hle hk hb

end CompleteLemmas

/-! ## Lemmas about `populate_bone_tree` -/

section PopulateLemmas

variable {n : Nat} {g : Graph n}

/-- The skip conditions of the `populate_bone_tree` loop body: the root
itself, blocks that are not plain `NiNode`s (including LOD selectors), and
host-classified grouping nodes are never registered. -/
def PSkip (g : Graph n) (r b : Fin n) : Prop :=
  b = r ∨ g.ntype b ≠ NType.niNode ∨ g.grouping b = true

instance (r b : Fin n) : Decidable (PSkip g r b) := by
  unfold PSkip; infer_instance

theorem popLoop_cons_skip {r b : Fin n} {st : St n} {rest : List (Fin n)}
    (h : PSkip g r b) :
    popLoop g r st (b :: rest) = popLoop g r st rest := by
  rw [popLoop]
  by_cases hbr : b = r
  · rw [if_pos hbr]
  · rw [if_neg hbr]
    rcases h with h | h | h
    · exact absurd h hbr
    · by_cases hni : isNiNode g b
      · rw [if_neg (not_not_intro hni)]
        have hlod : g.ntype b = NType.lodNode := by
          rcases hni with h' | h'
          · exact absurd h' h
          · exact h'
        rw [if_pos hlod]
      · rw [if_pos hni]
    · by_cases hni : isNiNode g b
      · rw [if_neg (not_not_intro hni)]
        by_cases hlod : g.ntype b = NType.lodNode
        · rw [if_pos hlod]
        · rw [if_neg hlod, if_pos h]
      · rw [if_pos hni]

theorem popLoop_cons_go {r b : Fin n} {st : St n} {rest : List (Fin n)}
    (h : ¬ PSkip g r b) (hk : keyMem st r) :
    popLoop g r st (b :: rest) =
      popLoop g r (if b ∈ getB st r then st else appendB st r b) rest := by
  rw [PSkip] at h
  push_neg at h
  obtain ⟨hbr, hnt, hgr⟩ := h
  rw [popLoop, if_neg hbr, if_neg (not_not_intro (show isNiNode g b from Or.inl hnt)),
    if_neg (hnt ▸ (fun hc => NType.noConfusion hc) : g.ntype b = NType.lodNode → False),
    if_neg (by simp [hgr] : ¬ (g.grouping b = true)), if_neg (not_not_intro hk)]
  split
  · rfl
  · rfl

theorem popLoop_cons_err {r b : Fin n} {st : St n} {rest : List (Fin n)}
    (h : ¬ PSkip g r b) (hk : ¬ keyMem st r) :
    popLoop g r st (b :: rest) = Except.error Err.keyError := by
  rw [PSkip] at h
  push_neg at h
  obtain ⟨hbr, hnt, hgr⟩ := h
  rw [popLoop, if_neg hbr, if_neg (not_not_intro (show isNiNode g b from Or.inl hnt)),
    if_neg (hnt ▸ (fun hc => NType.noConfusion hc) : g.ntype b = NType.lodNode → False),
    if_neg (by simp [hgr] : ¬ (g.grouping b = true)), if_pos hk]

theorem popLoop_keys : ∀ (l : List (Fin n)) (st : St n) {r : Fin n} {st' : St n},
    popLoop g r st l = Except.ok st' → ∀ r', keyMem st' r' ↔ keyMem st r' := by
  intro l
  induction l with
  | nil =>
    intro st r st' h r'
    rw [popLoop] at h
    rw [(Except.ok.injEq _ _ ▸ h : st = st')]
  | cons b rest ih =>
    intro st r st' h r'
    by_cases hs : PSkip g r b
    · rw [popLoop_cons_skip hs] at h
      exact ih st h r'
    · by_cases hk : keyMem st r
      · rw [popLoop_cons_go hs hk] at h
        refine (ih _ h r').trans ?_
        split
        · exact Iff.rfl
        · exact keyMem_appendB
      · rw [popLoop_cons_err hs hk] at h
        exact Except.noConfusion h

theorem popLoop_map_fst : ∀ (l : List (Fin n)) (st : St n) {r : Fin n} {st' : St n},
    popLoop g r st l = Except.ok st' → st'.map Prod.fst = st.map Prod.fst := by
  intro l
  induction l with
  | nil =>
    intro st r st' h
    rw [popLoop] at h
    rw [(Except.ok.injEq _ _ ▸ h : st = st')]
  | cons b rest ih =>
    intro st r st' h
    by_cases hs : PSkip g r b
    · rw [popLoop_cons_skip hs] at h
      exact ih st h
    · by_cases hk : keyMem st r
      · rw [popLoop_cons_go hs hk] at h
        refine (ih _ h).trans ?_
        split
        · rfl
        · exact appendB_map_fst st _ _
      · rw [popLoop_cons_err hs hk] at h
        exact Except.noConfusion h

theorem popLoop_getB_ne : ∀ (l : List (Fin n)) (st : St n) {r : Fin n} {st' : St n},
    popLoop g r st l = Except.ok st' → ∀ r', r' ≠ r → getB st' r' = getB st r' := by
  intro l
  induction l with
  | nil =>
    intro st r st' h r' _
    rw [popLoop] at h
    rw [(Except.ok.injEq _ _ ▸ h : st = st')]
  | cons b rest ih =>
    intro st r st' h r' hne
    by_cases hs : PSkip g r b
    · rw [popLoop_cons_skip hs] at h
      exact ih st h r' hne
    · by_cases hk : keyMem st r
      · rw [popLoop_cons_go hs hk] at h
        refine (ih _ h r' hne).trans ?_
        split
        · rfl
        · exact getB_appendB_ne hne
      · rw [popLoop_cons_err hs hk] at h
        exact Except.noConfusion h

theorem popLoop_sub : ∀ (l : List (Fin n)) (st : St n) {r : Fin n} {st' : St n},
    popLoop g r st l = Except.ok st' → ∀ r' a, a ∈ getB st r' → a ∈ getB st' r' := by
  intro l
  induction l with
  | nil =>
    intro st r st' h r' a ha
    rw [popLoop] at h
    rwa [← (Except.ok.injEq _ _ ▸ h : st = st')]
  | cons b rest ih =>
    intro st r st' h r' a ha
    by_cases hs : PSkip g r b
    · rw [popLoop_cons_skip hs] at h
      exact ih st h r' a ha
    · by_cases hk : keyMem st r
      · rw [popLoop_cons_go hs hk] at h
        refine ih _ h r' a ?_
        split
        · exact ha
        · exact mem_getB_appendB ha
      · rw [popLoop_cons_err hs hk] at h
        exact Except.noConfusion h

theorem popLoop_memle {l : List (Fin n)} {st : St n} {r : Fin n} {st' : St n}
    (h : popLoop g r st l = Except.ok st') : MemLe st st' :=
  ⟨fun r' hk => (popLoop_keys l st h r').mpr hk, fun r' a ha => popLoop_sub l st h r' a ha⟩

theorem popLoop_new : ∀ (l : List (Fin n)) (st : St n) {r : Fin n} {st' : St n},
    popLoop g r st l = Except.ok st' →
    ∀ a ∈ getB st' r, a ∈ getB st r ∨
      (a ∈ l ∧ a ≠ r ∧ g.ntype a = NType.niNode ∧ g.grouping a = false) := by
  intro l
  induction l with
  | nil =>
    intro st r st' h a ha
    rw [popLoop] at h
    rw [(Except.ok.injEq _ _ ▸ h : st = st')]
    exact Or.inl ha
  | cons b rest ih =>
    intro st r st' h a ha
    by_cases hs : PSkip g r b
    · rw [popLoop_cons_skip hs] at h
      rcases ih st h a ha with h' | ⟨h1, h2, h3, h4⟩
      · exact Or.inl h'
      · exact Or.inr ⟨List.mem_cons_of_mem _ h1, h2, h3, h4⟩
    · by_cases hk : keyMem st r
      · rw [popLoop_cons_go hs hk] at h
        rcases ih _ h a ha with h' | ⟨h1, h2, h3, h4⟩
        · by_cases hbm : b ∈ getB st r
          · rw [if_pos hbm] at h'
            exact Or.inl h'
          · rw [if_neg hbm, getB_appendB_same hk] at h'
            rcases List.mem_append.mp h' with h' | h'
            · exact Or.inl h'
            · rcases List.mem_singleton.mp h' with rfl
              rw [PSkip] at hs
              push_neg at hs
              exact Or.inr ⟨List.mem_cons_self _ _, hs.1, hs.2.1,
                Bool.eq_false_iff.mpr hs.2.2⟩
        · exact Or.inr ⟨List.mem_cons_of_mem _ h1, h2, h3, h4⟩
      · rw [popLoop_cons_err hs hk] at h
        exact Except.noConfusion h

theorem popLoop_post : ∀ (l : List (Fin n)) (st : St n) {r : Fin n} {st' : St n},
    popLoop g r st l = Except.ok st' →
    ∀ a ∈ l, a ≠ r → g.ntype a = NType.niNode → g.grouping a = false →
      a ∈ getB st' r := by
  intro l
  induction l with
  | nil =>
    intro st r st' h a ha
    exact absurd ha (List.not_mem_nil a)
  | cons b rest ih =>
    intro st r st' h a ha h1 h2 h3
    have hns : a ∈ b :: rest → a = b ∨ a ∈ rest := List.mem_cons.mp
    rcases List.mem_cons.mp ha with rfl | ha
    · have hnskip : ¬ PSkip g r a := by
        rw [PSkip]
        push_neg
        exact ⟨h1, h2, by simp [h3]⟩
      by_cases hk : keyMem st r
      · rw [popLoop_cons_go hnskip hk] at h
        refine popLoop_sub rest _ h r a ?_
        by_cases hbm : a ∈ getB st r
        · rw [if_pos hbm]; exact hbm
        · rw [if_neg hbm, getB_appendB_same hk]
          exact List.mem_append_right _ (List.mem_singleton_self a)
      · rw [popLoop_cons_err hnskip hk] at h
        exact Except.noConfusion h
    · by_cases hs : PSkip g r b
      · rw [popLoop_cons_skip hs] at h
        exact ih st h a ha h1 h2 h3
      · by_cases hk : keyMem st r
        · rw [popLoop_cons_go hs hk] at h
          exact ih _ h a ha h1 h2 h3
        · rw [popLoop_cons_err hs hk] at h
          exact Except.noConfusion h

theorem popLoop_nodup : ∀ (l : List (Fin n)) (st : St n) {r : Fin n} {st' : St n},
    popLoop g r st l = Except.ok st' →
    (getB st r).Nodup → (getB st' r).Nodup := by
  intro l
  induction l with
  | nil =>
    intro st r st' h hnd
    rw [popLoop] at h
    rwa [← (Except.ok.injEq _ _ ▸ h : st = st')]
  | cons b rest ih =>
    intro st r st' h hnd
    by_cases hs : PSkip g r b
    · rw [popLoop_cons_skip hs] at h
      exact ih st h hnd
    · by_cases hk : keyMem st r
      · rw [popLoop_cons_go hs hk] at h
        refine ih _ h ?_
        by_cases hbm : b ∈ getB st r
        · rw [if_pos hbm]; exact hnd
        · rw [if_neg hbm, getB_appendB_same hk]
          exact List.Nodup.append hnd (List.nodup_singleton b)
            (by simpa using fun hin => hbm hin)
      · rw [popLoop_cons_err hs hk] at h
        exact Except.noConfusion h

theorem popLoop_ok : ∀ (l : List (Fin n)) (st : St n) (r : Fin n),
    keyMem st r → ∃ st', popLoop g r st l = Except.ok st' := by
  intro l
  induction l with
  | nil => intro st r _; exact ⟨st, by rw [popLoop]⟩
  | cons b rest ih =>
    intro st r hk
    by_cases hs : PSkip g r b
    · rw [popLoop_cons_skip hs]
      exact ih st r hk
    · rw [popLoop_cons_go hs hk]
      refine ih _ r ?_
      split
      · exact hk
      · exact keyMem_appendB.mpr hk

theorem popLoop_again : ∀ (l : List (Fin n)) (st : St n) {r : Fin n} {st' s : St n},
    popLoop g r st l = Except.ok st' → MemLe st' s →
    popLoop g r s l = Except.ok s := by
  intro l
  induction l with
  | nil => intro st r st' s _ _; rw [popLoop]
  | cons b rest ih =>
    intro st r st' s h hle
    by_cases hs : PSkip g r b
    · rw [popLoop_cons_skip hs] at h
      rw [popLoop_cons_skip hs]
      exact ih st h hle
    · by_cases hk0 : keyMem st r
      · rw [popLoop_cons_go hs hk0] at h
        have hk1 : keyMem (if b ∈ getB st r then st else appendB st r b) r := by
          split
          · exact hk0
          · exact keyMem_appendB.mpr hk0
        have hk : keyMem s r := hle.1 r ((popLoop_keys rest _ h r).mpr hk1)
        have hbmem : b ∈ getB s r := by
          refine hle.2 r b (popLoop_sub rest _ h r b ?_)
          by_cases hbm : b ∈ getB st r
          · rw [if_pos hbm]; exact hbm
          · rw [if_neg hbm, getB_appendB_same hk0]
            exact List.mem_append_right _ (List.mem_singleton_self b)
        rw [popLoop_cons_go hs hk, if_pos hbmem]
        exact ih _ h hle
      · rw [popLoop_cons_err hs hk0] at h
        exact Except.noConfusion h

/-- `populate_bone_tree` never fails when the root key is present. -/
theorem populate_ok {st : St n} {r : Fin n} (hk : keyMem st r) :
    ∃ st', populate g st r = Except.ok st' :=
  popLoop_ok (tree g r) st r hk

end PopulateLemmas

/-! ## The classification invariant -/

section InvariantDefs

variable {n : Nat} {g : Graph n}

theorem okInj {α β : Type _} {a b : β} (h : (Except.ok a : Except α β) = Except.ok b) :
    a = b := by injection h

/-- The structural invariant of the armature dictionary: every registered
bone lies strictly below its root on the parent chain, and every plain
non-grouping `NiNode` strictly between a bone and its root is registered
under the same root. -/
def Inv (g : Graph n) (st : St n) : Prop :=
  ∀ r b : Fin n, b ∈ getB st r →
    r ∈ ancestors g b ∧
    ∀ a ∈ between g b r, g.ntype a = NType.niNode → g.grouping a = false →
      a ∈ getB st r

/-- Duplicate-freedom of every bone list. -/
def NodupAll (st : St n) : Prop := ∀ r : Fin n, (getB st r).Nodup

theorem Inv_nil : Inv g ([] : St n) := by
  intro r b hb
  exact absurd hb (List.not_mem_nil b)

theorem NodupAll_nil : NodupAll ([] : St n) := by
  intro r
  exact List.nodup_nil

theorem MemLe_nil {st : St n} : MemLe ([] : St n) st :=
  ⟨fun r hk => absurd hk (by simp [keyMem]), fun r b hb => absurd hb (List.not_mem_nil b)⟩

theorem getB_single_nil {r0 r : Fin n} : getB [(r0, ([] : List (Fin n)))] r = [] := by
  rw [getB]
  split
  · rfl
  · rfl

theorem getB_insertKey_cases (st : St n) (r r' : Fin n) :
    getB (insertKey st r) r' = getB st r' ∨ getB (insertKey st r) r' = [] := by
  by_cases hk : keyMem st r'
  · exact Or.inl (getB_insertKey_of_keyMem hk)
  · exact Or.inr (getB_insertKey_of_not_keyMem hk)

theorem Inv_insertKey {st : St n} (hInv : Inv g st) (r : Fin n) :
    Inv g (insertKey st r) := by
  intro r' b hb
  rcases getB_insertKey_cases st r r' with hc | hc
  · rw [hc] at hb
    rcases hInv r' b hb with ⟨h1, h2⟩
    exact ⟨h1, fun a ha hnt hgr => mem_getB_insertKey (h2 a ha hnt hgr)⟩
  · rw [hc] at hb
    exact absurd hb (List.not_mem_nil b)

theorem NodupAll_insertKey {st : St n} (hnd : NodupAll st) (r : Fin n) :
    NodupAll (insertKey st r) := by
  intro r'
  rcases getB_insertKey_cases st r r' with hc | hc
  · rw [hc]; exact hnd r'
  · rw [hc]; exact List.nodup_nil

theorem between_ne_r : ∀ (fuel : Nat) (b : Fin n), b.val < fuel →
    ∀ r a : Fin n, a ∈ between g b r → a ≠ r := by
  intro fuel
  induction fuel with
  | zero => intro b h1; exact absurd h1 (by omega)
  | succ fuel ih =>
    intro b h1 r a ha
    cases hp : g.parentOf b with
    | none => rw [between_eq_none hp] at ha; exact absurd ha (List.not_mem_nil a)
    | some p =>
      have hlt : p.val < b.val := parent_lt hp
      rw [between_eq_some hp] at ha
      by_cases hpr : p = r
      · rw [if_pos hpr] at ha; exact absurd ha (List.not_mem_nil a)
      · rw [if_neg hpr] at ha
        rcases List.mem_cons.mp ha with rfl | ha
        · exact hpr
        · exact ih p (by omega) r a ha

theorem between_ancestor_r : ∀ (fuel : Nat) (b : Fin n), b.val < fuel →
    ∀ r a : Fin n, a ∈ between g b r → r ∈ ancestors g b → r ∈ ancestors g a := by
  intro fuel
  induction fuel with
  | zero => intro b h1; exact absurd h1 (by omega)
  | succ fuel ih =>
    intro b h1 r a ha hr
    cases hp : g.parentOf b with
    | none => rw [between_eq_none hp] at ha; exact absurd ha (List.not_mem_nil a)
    | some p =>
      have hlt : p.val < b.val := parent_lt hp
      rw [between_eq_some hp] at ha
      rw [ancestors_eq_some hp] at hr
      by_cases hpr : p = r
      · rw [if_pos hpr] at ha; exact absurd ha (List.not_mem_nil a)
      · rw [if_neg hpr] at ha
        have hrp : r ∈ ancestors g p := by
          rcases List.mem_cons.mp hr with hre | hr
          · exact absurd hre.symm hpr
          · exact hr
        rcases List.mem_cons.mp ha with rfl | ha
        · exact hrp
        · exact ih p (by omega) r a ha hrp

/-- Registering a bone (possibly by an unguarded append) and immediately
completing its bone tree preserves the invariant. -/
theorem complete_inv {st st1 st2 : St n} {b r : Fin n}
    (hInv : Inv g st)
    (hst1 : st1 = st ∨ st1 = appendB st r b)
    (h : completeF g n st1 b r = Except.ok st2) : Inv g st2 := by
  have hle1 : MemLe st st1 := by
    rcases hst1 with rfl | rfl
    · exact MemLe.rfl
    · exact MemLe.appendB r b
  have hle : MemLe st st2 := hle1.trans (completeF_memle h)
  have hanc : r ∈ ancestors g b := completeF_ancestor n st1 b r st2 b.isLt h
  have hbet : ∀ a ∈ between g b r, a ∈ getB st2 r :=
    completeF_between n st1 b r st2 b.isLt h
  intro r' b' hb'
  by_cases hr' : r' = r
  · subst hr'
    rcases completeF_new n st1 b r' st2 b.isLt h b' hb' with h1 | h1
    · have hin : b' ∈ getB st r' ∨ b' = b := by
        rcases hst1 with rfl | rfl
        · exact Or.inl h1
        · by_cases hk : keyMem st r'
          · rw [getB_appendB_same hk] at h1
            rcases List.mem_append.mp h1 with h1 | h1
            · exact Or.inl h1
            · exact Or.inr (List.mem_singleton.mp h1)
          · rw [appendB_of_not_keyMem hk] at h1
            exact Or.inl h1
      rcases hin with hin | rfl
      · rcases hInv r' b' hin with ⟨h2, h3⟩
        exact ⟨h2, fun a ha hnt hgr => hle.2 r' a (h3 a ha hnt hgr)⟩
      · exact ⟨hanc, fun a ha _ _ => hbet a ha⟩
    · refine ⟨between_ancestor_r n b b.isLt r' b' h1 hanc, ?_⟩
      intro a ha _ _
      exact hbet a (between_sub n b b.isLt r' b' h1 a ha)
  · have hsame : getB st2 r' = getB st r' := by
      rw [completeF_getB_ne n st1 b r st2 h r' hr']
      rcases hst1 with rfl | rfl
      · rfl
      · exact getB_appendB_ne hr'
    rw [hsame] at hb'
    rcases hInv r' b' hb' with ⟨h2, h3⟩
    exact ⟨h2, fun a ha hnt hgr => hle.2 r' a (h3 a ha hnt hgr)⟩

/-- Tree population preserves the invariant. -/
theorem populate_inv {st st' : St n} {r : Fin n}
    (hInv : Inv g st) (h : populate g st r = Except.ok st') : Inv g st' := by
  have hle : MemLe st st' := popLoop_memle h
  intro r' b hb
  by_cases hr' : r' = r
  · subst hr'
    rcases popLoop_new (tree g r') st h b hb with h1 | ⟨h1, h2, _, _⟩
    · rcases hInv r' b h1 with ⟨h2, h3⟩
      exact ⟨h2, fun a ha hnt hgr => hle.2 r' a (h3 a ha hnt hgr)⟩
    · refine ⟨tree_ancestor n b b.isLt r' h1 h2, ?_⟩
      intro a ha hnt hgr
      have hat : a ∈ tree g r' := tree_of_between n b b.isLt r' a h1 h2 ha
      have har : a ≠ r' := between_ne_r n b b.isLt r' a ha
      exact popLoop_post (tree g r') st h a hat har hnt hgr
  · rw [popLoop_getB_ne (tree g r) st h r' hr'] at hb
    rcases hInv r' b hb with ⟨h2, h3⟩
    exact ⟨h2, fun a ha hnt hgr => hle.2 r' a (h3 a ha hnt hgr)⟩

theorem populate_nodupAll {st st' : St n} {r : Fin n}
    (hnd : NodupAll st) (h : populate g st r = Except.ok st') : NodupAll st' := by
  intro r'
  by_cases hr' : r' = r
  · subst hr'
    exact popLoop_nodup (tree g r') st h (hnd r')
  · rw [popLoop_getB_ne (tree g r) st h r' hr']
    exact hnd r'

end InvariantDefs

/-! ## Lemmas about the skin-bones loop, the `GEOMETRY_ONLY` branches and
the skin scan -/

section ScanLemmas

variable {n : Nat} {g : Graph n}

theorem skinBones_memle : ∀ (l : List (Option (Fin n))) (st : St n) {r : Fin n}
    {st' : St n}, skinBonesLoop g r st l = Except.ok st' → MemLe st st' := by
  intro l
  induction l with
  | nil =>
    intro st r st' h
    rw [skinBonesLoop] at h
    rw [okInj h] at *
    exact MemLe.rfl
  | cons ob rest ih =>
    intro st r st' h
    cases ob with
    | none =>
      rw [skinBonesLoop] at h
      exact ih st h
    | some b =>
      rw [skinBonesLoop] at h
      by_cases hk : keyMem st r
      · rw [if_neg (not_not_intro hk)] at h
        simp only at h
        cases hc : complete g (if b ∈ getB st r then st else appendB st r b) b r with
        | error e => rw [hc] at h; exact Except.noConfusion h
        | ok st2 =>
          rw [hc] at h
          simp only at h
          have hle1 : MemLe st (if b ∈ getB st r then st else appendB st r b) := by
            split
            · exact MemLe.rfl
            · exact MemLe.appendB r b
          exact (hle1.trans (completeF_memle hc)).trans (ih st2 h)
      · rw [if_pos hk] at h
        exact Except.noConfusion h

theorem skinBones_keys : ∀ (l : List (Option (Fin n))) (st : St n) {r : Fin n}
    {st' : St n}, skinBonesLoop g r st l = Except.ok st' →
    ∀ r', keyMem st' r' ↔ keyMem st r' := by
  intro l
  induction l with
  | nil =>
    intro st r st' h r'
    rw [skinBonesLoop] at h
    rw [okInj h]
  | cons ob rest ih =>
    intro st r st' h r'
    cases ob with
    | none =>
      rw [skinBonesLoop] at h
      exact ih st h r'
    | some b =>
      rw [skinBonesLoop] at h
      by_cases hk : keyMem st r
      · rw [if_neg (not_not_intro hk)] at h
        simp only at h
        cases hc : complete g (if b ∈ getB st r then st else appendB st r b) b r with
        | error e => rw [hc] at h; exact Except.noConfusion h
        | ok st2 =>
          rw [hc] at h
          simp only at h
          refine (ih st2 h r').trans ?_
          refine (completeF_keys n _ b r st2 hc r').trans ?_
          split
          · exact Iff.rfl
          · exact keyMem_appendB
      · rw [if_pos hk] at h
        exact Except.noConfusion h

theorem skinBones_getB_ne : ∀ (l : List (Option (Fin n))) (st : St n) {r : Fin n}
    {st' : St n}, skinBonesLoop g r st l = Except.ok st' →
    ∀ r', r' ≠ r → getB st' r' = getB st r' := by
  intro l
  induction l with
  | nil =>
    intro st r st' h r' _
    rw [skinBonesLoop] at h
    rw [okInj h]
  | cons ob rest ih =>
    intro st r st' h r' hne
    cases ob with
    | none =>
      rw [skinBonesLoop] at h
      exact ih st h r' hne
    | some b =>
      rw [skinBonesLoop] at h
      by_cases hk : keyMem st r
      · rw [if_neg (not_not_intro hk)] at h
        simp only at h
        cases hc : complete g (if b ∈ getB st r then st else appendB st r b) b r with
        | error e => rw [hc] at h; exact Except.noConfusion h
        | ok st2 =>
          rw [hc] at h
          simp only at h
          refine (ih st2 h r' hne).trans ?_
          refine (completeF_getB_ne n _ b r st2 hc r' hne).trans ?_
          split
          · rfl
          · exact getB_appendB_ne hne
      · rw [if_pos hk] at h
        exact Except.noConfusion h

theorem skinBones_inv : ∀ (l : List (Option (Fin n))) (st : St n) {r : Fin n}
    {st' : St n}, Inv g st → skinBonesLoop g r st l = Except.ok st' → Inv g st' := by
  intro l
  induction l with
  | nil =>
    intro st r st' hInv h
    rw [skinBonesLoop] at h
    rw [← okInj h]
    exact hInv
  | cons ob rest ih =>
    intro st r st' hInv h
    cases ob with
    | none =>
      rw [skinBonesLoop] at h
      exact ih st hInv h
    | some b =>
      rw [skinBonesLoop] at h
      by_cases hk : keyMem st r
      · rw [if_neg (not_not_intro hk)] at h
        simp only at h
        cases hc : complete g (if b ∈ getB st r then st else appendB st r b) b r with
        | error e => rw [hc] at h; exact Except.noConfusion h
        | ok st2 =>
          rw [hc] at h
          simp only at h
          have hinv2 : Inv g st2 := by
            refine complete_inv hInv ?_ hc
            split
            · exact Or.inl (Eq.refl _)
            · exact Or.inr (Eq.refl _)
          exact ih st2 hinv2 h
      · rw [if_pos hk] at h
        exact Except.noConfusion h

theorem skinBones_nodupAll : ∀ (l : List (Option (Fin n))) (st : St n) {r : Fin n}
    {st' : St n}, NodupAll st → skinBonesLoop g r st l = Except.ok st' →
    NodupAll st' := by
  intro l
  induction l with
  | nil =>
    intro st r st' hnd h
    rw [skinBonesLoop] at h
    rw [← okInj h]
    exact hnd
  | cons ob rest ih =>
    intro st r st' hnd h
    cases ob with
    | none =>
      rw [skinBonesLoop] at h
      exact ih st hnd h
    | some b =>
      rw [skinBonesLoop] at h
      by_cases hk : keyMem st r
      · rw [if_neg (not_not_intro hk)] at h
        simp only at h
        cases hc : complete g (if b ∈ getB st r then st else appendB st r b) b r with
        | error e => rw [hc] at h; exact Except.noConfusion h
        | ok st2 =>
          rw [hc] at h
          simp only at h
          have hnd1 : NodupAll (if b ∈ getB st r then st else appendB st r b) := by
            intro r'
            split
            · exact hnd r'
            · by_cases hr' : r' = r
              · subst hr'
                next hbm =>
                  rw [getB_appendB_same hk]
                  exact List.Nodup.append (hnd r') (List.nodup_singleton b)
                    (by simpa using fun hin => hbm hin)
              · rw [getB_appendB_ne hr']
                exact hnd r'
          have hnd2 : NodupAll st2 := by
            intro r'
            by_cases hr' : r' = r
            · subst hr'
              exact completeF_nodup n _ b r' st2 hc (hnd1 r')
            · rw [completeF_getB_ne n _ b r st2 hc r' hr']
              exact hnd1 r'
          exact ih st2 hnd2 h
      · rw [if_pos hk] at h
        exact Except.noConfusion h

theorem skinBones_again : ∀ (l : List (Option (Fin n))) (st : St n) {r : Fin n}
    {st' s : St n}, skinBonesLoop g r st l = Except.ok st' → MemLe st' s →
    skinBonesLoop g r s l = Except.ok s := by
  intro l
  induction l with
  | nil =>
    intro st r st' s _ _
    rw [skinBonesLoop]
  | cons ob rest ih =>
    intro st r st' s h hle
    cases ob with
    | none =>
      rw [skinBonesLoop] at h ⊢
      exact ih st h hle
    | some b =>
      rw [skinBonesLoop] at h
      by_cases hk : keyMem st r
      · rw [if_neg (not_not_intro hk)] at h
        simp only at h
        cases hc : complete g (if b ∈ getB st r then st else appendB st r b) b r with
        | error e => rw [hc] at h; exact Except.noConfusion h
        | ok st2 =>
          rw [hc] at h
          simp only at h
          have hle2 : MemLe st2 s := (skinBones_memle rest st2 h).trans hle
          have hks : keyMem s r := by
            refine hle.1 r ?_
            refine (skinBones_keys rest st2 h r).mpr ?_
            refine (completeF_keys n _ b r st2 hc r).mpr ?_
            split
            · exact hk
            · exact keyMem_appendB.mpr hk
          have hbs : b ∈ getB s r := by
            refine hle2.2 r b (completeF_sub n _ b r st2 hc r b ?_)
            split
            · next hbm => exact hbm
            · rw [getB_appendB_same hk]
              exact List.mem_append_right _ (List.mem_singleton_self b)
          rw [skinBonesLoop, if_neg (not_not_intro hks)]
          simp only
          rw [if_pos hbs]
          rw [complete_again hc hle2 hks hbs]
          simp only
          exact ih st2 h hle
      · rw [if_pos hk] at h
        exact Except.noConfusion h

end ScanLemmas

/-! ## Lemmas about the `GEOMETRY_ONLY` identification branch and the skin
scan -/

section GeoScanLemmas

variable {n : Nat} {g : Graph n}

theorem populate_again {st : St n} {r : Fin n} {st' s : St n}
    (h : populate g st r = Except.ok st') (hle : MemLe st' s) :
    populate g s r = Except.ok s :=
  popLoop_again (tree g r) st h hle

theorem geoBones_memle {cfg : Config} {r : Fin n} :
    ∀ (names : List String) (st : St n) {st' : St n},
    geoBones g cfg r st names = Except.ok st' → MemLe st st' := by
  intro names
  induction names with
  | nil =>
    intro st st' h
    rw [geoBones] at h
    rw [okInj h] at *
    exact MemLe.rfl
  | cons bn rest ih =>
    intro st st' h
    rw [geoBones] at h
    cases hf : findByName g r (cfg.boneNameToNif bn) false with
    | none =>
      rw [hf] at h
      exact ih st h
    | some bb =>
      rw [hf] at h
      simp only at h
      by_cases hk : keyMem st r
      · rw [if_neg (not_not_intro hk)] at h
        cases hc : complete g (appendB st r bb) bb r with
        | error e => rw [hc] at h; exact Except.noConfusion h
        | ok st1 =>
          rw [hc] at h
          simp only at h
          exact ((MemLe.appendB r bb).trans (completeF_memle hc)).trans (ih st1 h)
      · rw [if_pos hk] at h
        exact Except.noConfusion h

theorem geoBones_keys {cfg : Config} {r : Fin n} :
    ∀ (names : List String) (st : St n) {st' : St n},
    geoBones g cfg r st names = Except.ok st' →
    ∀ r', keyMem st' r' ↔ keyMem st r' := by
  intro names
  induction names with
  | nil =>
    intro st st' h r'
    rw [geoBones] at h
    rw [okInj h]
  | cons bn rest ih =>
    intro st st' h r'
    rw [geoBones] at h
    cases hf : findByName g r (cfg.boneNameToNif bn) false with
    | none =>
      rw [hf] at h
      exact ih st h r'
    | some bb =>
      rw [hf] at h
      simp only at h
      by_cases hk : keyMem st r
      · rw [if_neg (not_not_intro hk)] at h
        cases hc : complete g (appendB st r bb) bb r with
        | error e => rw [hc] at h; exact Except.noConfusion h
        | ok st1 =>
          rw [hc] at h
          simp only at h
          exact ((ih st1 h r').trans (completeF_keys n _ bb r st1 hc r')).trans
            keyMem_appendB
      · rw [if_pos hk] at h
        exact Except.noConfusion h

theorem geoBones_inv {cfg : Config} {r : Fin n} :
    ∀ (names : List String) (st : St n) {st' : St n},
    Inv g st → geoBones g cfg r st names = Except.ok st' → Inv g st' := by
  intro names
  induction names with
  | nil =>
    intro st st' hInv h
    rw [geoBones] at h
    rw [← okInj h]
    exact hInv
  | cons bn rest ih =>
    intro st st' hInv h
    rw [geoBones] at h
    cases hf : findByName g r (cfg.boneNameToNif bn) false with
    | none =>
      rw [hf] at h
      exact ih st hInv h
    | some bb =>
      rw [hf] at h
      simp only at h
      by_cases hk : keyMem st r
      · rw [if_neg (not_not_intro hk)] at h
        cases hc : complete g (appendB st r bb) bb r with
        | error e => rw [hc] at h; exact Except.noConfusion h
        | ok st1 =>
          rw [hc] at h
          simp only at h
          exact ih st1 (complete_inv hInv (Or.inr (Eq.refl _)) hc) h
      · rw [if_pos hk] at h
        exact Except.noConfusion h

theorem geoInit_ok_elim {cfg : Config} {st : St n} {x : Fin n} {st' : St n}
    (h : geoInit g cfg st x = Except.ok st') :
    ∃ r0, findByName g x cfg.selectedName false = some r0 ∧
      geoBones g cfg r0 (setKeyEmpty st r0) cfg.selectedBoneNames = Except.ok st' := by
  rw [geoInit] at h
  cases hf : findByName g x cfg.selectedName false with
  | none => rw [hf] at h; exact Except.noConfusion h
  | some r0 =>
    rw [hf] at h
    exact ⟨r0, Eq.refl _, h⟩

theorem Inv_single_nil (r0 : Fin n) : Inv g [(r0, ([] : List (Fin n)))] := by
  intro r b hb
  rw [getB_single_nil] at hb
  exact absurd hb (List.not_mem_nil b)

theorem geoInit_inv {cfg : Config} {x : Fin n} {st' : St n}
    (h : geoInit g cfg ([] : St n) x = Except.ok st') : Inv g st' := by
  rcases geoInit_ok_elim h with ⟨r0, _, hgb⟩
  exact geoBones_inv cfg.selectedBoneNames _ (by rw [setKeyEmpty]; exact Inv_single_nil r0) hgb

theorem keyMem_single (r0 : Fin n) : keyMem [(r0, ([] : List (Fin n)))] r0 :=
  ⟨(r0, []), by simp, Eq.refl _⟩

theorem geoInit_keyMem {cfg : Config} {x : Fin n} {st' : St n}
    (h : geoInit g cfg ([] : St n) x = Except.ok st') : ∃ r0, keyMem st' r0 := by
  rcases geoInit_ok_elim h with ⟨r0, _, hgb⟩
  refine ⟨r0, (geoBones_keys cfg.selectedBoneNames _ hgb r0).mpr ?_⟩
  rw [setKeyEmpty]
  exact keyMem_single r0

/-- Case analysis on a successful skin scan. -/
theorem skinScan_ok_elim {cfg : Config} {ti : Bool} {st : St n} {x : Fin n}
    {st' : St n} (h : skinScan g cfg ti st x = Except.ok st') :
    (¬ (g.ntype x = NType.triGeom ∧ (g.skin x).isSome) ∧ st' = st) ∨
    ∃ sk, g.ntype x = NType.triGeom ∧ g.skin x = some sk ∧
      (cfg.policy = Policy.geometryOnly → keyMem st sk.skeletonRoot) ∧
      ∃ st2,
        skinBonesLoop g sk.skeletonRoot
          (if cfg.policy = Policy.everything then
            (if keyMem st sk.skeletonRoot then st else insertKey st sk.skeletonRoot)
          else st) sk.skinBones = Except.ok st2 ∧
        populate g st2 sk.skeletonRoot = Except.ok st' := by
  by_cases hx : g.ntype x = NType.triGeom
  · rw [skinScan, if_pos hx] at h
    cases hsk : g.skin x with
    | none =>
      rw [hsk] at h
      exact Or.inl ⟨fun hcc => by simpa using hcc.2, (okInj h).symm⟩
    | some sk =>
      rw [hsk] at h
      simp only at h
      by_cases hp1 : cfg.policy = Policy.everything
      · rw [if_pos hp1] at h
        simp only at h
        cases hsb : skinBonesLoop g sk.skeletonRoot
            (if keyMem st sk.skeletonRoot then st else insertKey st sk.skeletonRoot)
            sk.skinBones with
        | error e => rw [hsb] at h; exact Except.noConfusion h
        | ok st2 =>
          rw [hsb] at h
          simp only at h
          refine Or.inr ⟨sk, hx, Eq.refl _, ?_, st2, ?_, h⟩
          · intro hp2; rw [hp1] at hp2; exact Policy.noConfusion hp2
          · rw [if_pos hp1]; exact hsb
      · rw [if_neg hp1] at h
        by_cases hp2 : cfg.policy = Policy.geometryOnly
        · rw [if_pos hp2] at h
          by_cases hk : keyMem st sk.skeletonRoot
          · rw [if_neg (not_not_intro hk)] at h
            simp only at h
            cases hsb : skinBonesLoop g sk.skeletonRoot st sk.skinBones with
            | error e => rw [hsb] at h; exact Except.noConfusion h
            | ok st2 =>
              rw [hsb] at h
              simp only at h
              refine Or.inr ⟨sk, hx, Eq.refl _, fun _ => hk, st2, ?_, h⟩
              rw [if_neg hp1]
              exact hsb
          · rw [if_pos hk] at h
            simp only at h
            exact Except.noConfusion h
        · rw [if_neg hp2] at h
          simp only at h
          cases hsb : skinBonesLoop g sk.skeletonRoot st sk.skinBones with
          | error e => rw [hsb] at h; exact Except.noConfusion h
          | ok st2 =>
            rw [hsb] at h
            simp only at h
            refine Or.inr ⟨sk, hx, Eq.refl _, fun hc => absurd hc hp2, st2, ?_, h⟩
            rw [if_neg hp1]
            exact hsb
  · rw [skinScan, if_neg hx] at h
    exact Or.inl ⟨fun hcc => hx hcc.1, (okInj h).symm⟩

theorem skinScan_memle {cfg : Config} {ti : Bool} {st : St n} {x : Fin n}
    {st' : St n} (h : skinScan g cfg ti st x = Except.ok st') : MemLe st st' := by
  rcases skinScan_ok_elim h with ⟨hno0, rfl⟩ | ⟨sk, hx, hsk, hgk, st2, hsb, hpop⟩
  · exact MemLe.rfl
  · have h1 : MemLe st (if cfg.policy = Policy.everything then
        (if keyMem st sk.skeletonRoot then st else insertKey st sk.skeletonRoot)
        else st) := by
      split
      · split
        · exact MemLe.rfl
        · exact MemLe.insertKey sk.skeletonRoot
      · exact MemLe.rfl
    exact (h1.trans (skinBones_memle sk.skinBones _ hsb)).trans (popLoop_memle hpop)

theorem skinScan_inv {cfg : Config} {ti : Bool} {st : St n} {x : Fin n}
    {st' : St n} (hInv : Inv g st) (h : skinScan g cfg ti st x = Except.ok st') :
    Inv g st' := by
  rcases skinScan_ok_elim h with ⟨hno0, rfl⟩ | ⟨sk, hx, hsk, hgk, st2, hsb, hpop⟩
  · exact hInv
  · have h1 : Inv g (if cfg.policy = Policy.everything then
        (if keyMem st sk.skeletonRoot then st else insertKey st sk.skeletonRoot)
        else st) := by
      split
      · split
        · exact hInv
        · exact Inv_insertKey hInv sk.skeletonRoot
      · exact hInv
    exact populate_inv (skinBones_inv sk.skinBones _ h1 hsb) hpop

theorem skinScan_nodupAll {cfg : Config} {ti : Bool} {st : St n} {x : Fin n}
    {st' : St n} (hnd : NodupAll st) (h : skinScan g cfg ti st x = Except.ok st') :
    NodupAll st' := by
  rcases skinScan_ok_elim h with ⟨hno0, rfl⟩ | ⟨sk, hx, hsk, hgk, st2, hsb, hpop⟩
  · exact hnd
  · have h1 : NodupAll (if cfg.policy = Policy.everything then
        (if keyMem st sk.skeletonRoot then st else insertKey st sk.skeletonRoot)
        else st) := by
      split
      · split
        · exact hnd
        · exact NodupAll_insertKey hnd sk.skeletonRoot
      · exact hnd
    exact populate_nodupAll (skinBones_nodupAll sk.skinBones _ h1 hsb) hpop

theorem skinScan_again {cfg : Config} {ti ti' : Bool} {st : St n} {x : Fin n}
    {st' s : St n} (h : skinScan g cfg ti st x = Except.ok st') (hle : MemLe st' s) :
    skinScan g cfg ti' s x = Except.ok s := by
  by_cases hx : g.ntype x = NType.triGeom
  · rw [skinScan, if_pos hx]
    cases hsk : g.skin x with
    | none => rfl
    | some sk =>
      simp only
      rcases skinScan_ok_elim h with ⟨hno, rfl⟩ | ⟨sk2, hx2, hsk2, hgk, st2, hsb, hpop⟩
      · exact absurd ⟨hx, by rw [hsk]; rfl⟩ hno
      · rw [hsk] at hsk2
        have hskeq : sk2 = sk := by injection hsk2.symm
        rw [hskeq] at hgk hsb hpop
        have hk1 : cfg.policy = Policy.everything ∨ cfg.policy = Policy.geometryOnly →
            keyMem s sk.skeletonRoot := by
          intro hpol
          have hkin : keyMem (if cfg.policy = Policy.everything then
              (if keyMem st sk.skeletonRoot then st else insertKey st sk.skeletonRoot)
              else st) sk.skeletonRoot := by
            rcases hpol with hp | hp
            · rw [if_pos hp]
              split
              · next hkk => exact hkk
              · exact keyMem_insertKey.mpr (Or.inr (Eq.refl _))
            · have hne : cfg.policy ≠ Policy.everything := by
                rw [hp]; intro hc; exact Policy.noConfusion hc
              rw [if_neg hne]
              exact hgk hp
          refine hle.1 sk.skeletonRoot ?_
          refine (popLoop_keys (tree g sk.skeletonRoot) st2 hpop sk.skeletonRoot).mpr ?_
          exact (skinBones_keys sk.skinBones _ hsb sk.skeletonRoot).mpr hkin
        have hle2 : MemLe st2 s := (popLoop_memle hpop).trans hle
        have hstep : (if cfg.policy = Policy.everything then
            Except.ok (if keyMem s sk.skeletonRoot then s else insertKey s sk.skeletonRoot)
            else if cfg.policy = Policy.geometryOnly then
              (if ¬ keyMem s sk.skeletonRoot then
                Except.error (if ti' then Err.incompatibleSkeleton else Err.nameError)
              else Except.ok s)
            else Except.ok s) = Except.ok s := by
          by_cases hp1 : cfg.policy = Policy.everything
          · rw [if_pos hp1, if_pos (hk1 (Or.inl hp1))]
          · rw [if_neg hp1]
            by_cases hp2 : cfg.policy = Policy.geometryOnly
            · rw [if_pos hp2, if_neg (not_not_intro (hk1 (Or.inr hp2)))]
            · rw [if_neg hp2]
        rw [hstep]
        simp only
        have hsagain : skinBonesLoop g sk.skeletonRoot s sk.skinBones = Except.ok s :=
          skinBones_again sk.skinBones _ hsb hle2
        rw [hsagain]
        simp only
        exact populate_again hpop hle
  · rw [skinScan, if_neg hx]

end GeoScanLemmas

/-! ## Lemmas about the traversal over children -/

section RunChildrenLemmas

variable {n : Nat} {g : Graph n}

theorem runChildren_pres {P : St n → Prop} {step : St n → Fin n → Except Err (St n)} :
    ∀ (l : List (Fin n)) (st : St n) {st' : St n},
    (∀ c ∈ l, ∀ s s', P s → step s c = Except.ok s' → P s') → P st →
    runChildren g step st l = Except.ok st' → P st' := by
  intro l
  induction l with
  | nil =>
    intro st st' _ hP h
    rw [runChildren] at h
    rw [← okInj h]
    exact hP
  | cons c rest ih =>
    intro st st' hstep hP h
    rw [runChildren] at h
    by_cases hav : isAVObject g c
    · rw [if_pos hav] at h
      cases hc : step st c with
      | error e => rw [hc] at h; exact Except.noConfusion h
      | ok st1 =>
        rw [hc] at h
        simp only at h
        exact ih st1 (fun c' hc' => hstep c' (List.mem_cons_of_mem _ hc'))
          (hstep c (List.mem_cons_self _ _) st st1 hP hc) h
    · rw [if_neg hav] at h
      exact ih st (fun c' hc' => hstep c' (List.mem_cons_of_mem _ hc')) hP h

theorem runChildren_memle {step : St n → Fin n → Except Err (St n)} :
    ∀ (l : List (Fin n)) (st : St n) {st' : St n},
    (∀ c ∈ l, ∀ s s', step s c = Except.ok s' → MemLe s s') →
    runChildren g step st l = Except.ok st' → MemLe st st' := by
  intro l
  induction l with
  | nil =>
    intro st st' _ h
    rw [runChildren] at h
    rw [okInj h] at *
    exact MemLe.rfl
  | cons c rest ih =>
    intro st st' hmono h
    rw [runChildren] at h
    by_cases hav : isAVObject g c
    · rw [if_pos hav] at h
      cases hc : step st c with
      | error e => rw [hc] at h; exact Except.noConfusion h
      | ok st1 =>
        rw [hc] at h
        simp only at h
        exact (hmono c (List.mem_cons_self _ _) st st1 hc).trans
          (ih st1 (fun c' hc' => hmono c' (List.mem_cons_of_mem _ hc')) h)
    · rw [if_neg hav] at h
      exact ih st (fun c' hc' => hmono c' (List.mem_cons_of_mem _ hc')) h

theorem runChildren_again {step : St n → Fin n → Except Err (St n)} :
    ∀ (l : List (Fin n)) (st : St n) {st' s : St n},
    (∀ c ∈ l, ∀ s1 s2, step s1 c = Except.ok s2 → MemLe s1 s2) →
    (∀ c ∈ l, ∀ s1 s2 t, step s1 c = Except.ok s2 → MemLe s2 t →
      step t c = Except.ok t) →
    runChildren g step st l = Except.ok st' → MemLe st' s →
    runChildren g step s l = Except.ok s := by
  intro l
  induction l with
  | nil =>
    intro st st' s _ _ _ _
    rw [runChildren]
  | cons c rest ih =>
    intro st st' s hmono hagain h hle
    rw [runChildren] at h ⊢
    by_cases hav : isAVObject g c
    · rw [if_pos hav] at h ⊢
      cases hc : step st c with
      | error e => rw [hc] at h; exact Except.noConfusion h
      | ok st1 =>
        rw [hc] at h
        simp only at h
        have hle1 : MemLe st1 s :=
          (runChildren_memle rest st1
            (fun c' hc' => hmono c' (List.mem_cons_of_mem _ hc')) h).trans hle
        rw [hagain c (List.mem_cons_self _ _) st st1 s hc hle1]
        simp only
        exact ih st1 (fun c' hc' => hmono c' (List.mem_cons_of_mem _ hc'))
          (fun c' hc' => hagain c' (List.mem_cons_of_mem _ hc')) h hle
    · rw [if_neg hav] at h ⊢
      exact ih st (fun c' hc' => hmono c' (List.mem_cons_of_mem _ hc'))
        (fun c' hc' => hagain c' (List.mem_cons_of_mem _ hc')) h hle

end RunChildrenLemmas

/-! ## Lemmas about `mark_armatures_bones` -/

section MarkLemmas

variable {n : Nat} {g : Graph n} {cfg : Config}

theorem keyMem_nil_false {r : Fin n} : ¬ keyMem ([] : St n) r := by
  simp [keyMem]

theorem markF_memle : ∀ (fuel : Nat) (st : St n) (x : Fin n) {st' : St n},
    markF g cfg fuel st x = Except.ok st' → MemLe st st' := by
  intro fuel
  induction fuel with
  | zero => intro st x st' h; exact Except.noConfusion h
  | succ fuel ih =>
    intro st x st' h
    rw [markF] at h
    by_cases hc : skelCond cfg
    · rw [if_pos hc] at h
      by_cases hni : isNiNode g x
      · rw [if_neg (not_not_intro hni)] at h
        refine MemLe.trans ?_ (popLoop_memle h)
        split
        · exact MemLe.rfl
        · exact MemLe.insertKey _
      · rw [if_pos hni] at h
        exact Except.noConfusion h
    · rw [if_neg hc] at h
      by_cases hgi : geoInitCond cfg st
      · rw [if_pos hgi] at h
        cases hgeo : geoInit g cfg st x with
        | error e => rw [hgeo] at h; exact Except.noConfusion h
        | ok st1 =>
          rw [hgeo] at h
          simp only at h
          cases hscan : skinScan g cfg (decide (geoInitCond cfg st)) st1 x with
          | error e => rw [hscan] at h; exact Except.noConfusion h
          | ok st2 =>
            rw [hscan] at h
            simp only at h
            rw [hgi.2]
            exact MemLe_nil.trans ((skinScan_memle hscan).trans
              (runChildren_memle (g.children x) st2
                (fun c _ s s' hh => ih s c hh) h))
      · rw [if_neg hgi] at h
        simp only at h
        cases hscan : skinScan g cfg (decide (geoInitCond cfg st)) st x with
        | error e => rw [hscan] at h; exact Except.noConfusion h
        | ok st2 =>
          rw [hscan] at h
          simp only at h
          exact (skinScan_memle hscan).trans
            (runChildren_memle (g.children x) st2 (fun c _ s s' hh => ih s c hh) h)

theorem markF_inv : ∀ (fuel : Nat) (st : St n) (x : Fin n) {st' : St n},
    Inv g st → markF g cfg fuel st x = Except.ok st' → Inv g st' := by
  intro fuel
  induction fuel with
  | zero => intro st x st' _ h; exact Except.noConfusion h
  | succ fuel ih =>
    intro st x st' hInv h
    rw [markF] at h
    by_cases hc : skelCond cfg
    · rw [if_pos hc] at h
      by_cases hni : isNiNode g x
      · rw [if_neg (not_not_intro hni)] at h
        refine populate_inv ?_ h
        split
        · exact hInv
        · exact Inv_insertKey hInv _
      · rw [if_pos hni] at h
        exact Except.noConfusion h
    · rw [if_neg hc] at h
      by_cases hgi : geoInitCond cfg st
      · rw [if_pos hgi] at h
        cases hgeo : geoInit g cfg st x with
        | error e => rw [hgeo] at h; exact Except.noConfusion h
        | ok st1 =>
          rw [hgeo] at h
          simp only at h
          cases hscan : skinScan g cfg (decide (geoInitCond cfg st)) st1 x with
          | error e => rw [hscan] at h; exact Except.noConfusion h
          | ok st2 =>
            rw [hscan] at h
            simp only at h
            rw [hgi.2] at hgeo
            refine runChildren_pres (g.children x) st2
              (fun c _ s s' hs hh => ih s c hs hh)
              (skinScan_inv (geoInit_inv hgeo) hscan) h
      · rw [if_neg hgi] at h
        simp only at h
        cases hscan : skinScan g cfg (decide (geoInitCond cfg st)) st x with
        | error e => rw [hscan] at h; exact Except.noConfusion h
        | ok st2 =>
          rw [hscan] at h
          simp only at h
          exact runChildren_pres (g.children x) st2
            (fun c _ s s' hs hh => ih s c hs hh) (skinScan_inv hInv hscan) h

theorem markF_nodupAll (hpol : cfg.policy ≠ Policy.geometryOnly) :
    ∀ (fuel : Nat) (st : St n) (x : Fin n) {st' : St n},
    NodupAll st → markF g cfg fuel st x = Except.ok st' → NodupAll st' := by
  intro fuel
  induction fuel with
  | zero => intro st x st' _ h; exact Except.noConfusion h
  | succ fuel ih =>
    intro st x st' hnd h
    rw [markF] at h
    by_cases hc : skelCond cfg
    · rw [if_pos hc] at h
      by_cases hni : isNiNode g x
      · rw [if_neg (not_not_intro hni)] at h
        refine populate_nodupAll ?_ h
        split
        · exact hnd
        · exact NodupAll_insertKey hnd _
      · rw [if_pos hni] at h
        exact Except.noConfusion h
    · rw [if_neg hc] at h
      have hgi : ¬ geoInitCond cfg st := fun hcc => hpol hcc.1
      rw [if_neg hgi] at h
      simp only at h
      cases hscan : skinScan g cfg (decide (geoInitCond cfg st)) st x with
      | error e => rw [hscan] at h; exact Except.noConfusion h
      | ok st2 =>
        rw [hscan] at h
        simp only at h
        exact runChildren_pres (g.children x) st2
          (fun c _ s s' hs hh => ih s c hs hh) (skinScan_nodupAll hnd hscan) h

/-- Re-running `mark_armatures_bones` on any state accumulating the result
of a previous successful run returns that state unchanged. -/
theorem markF_again : ∀ (fuel : Nat) (st : St n) (x : Fin n) {st' s : St n},
    markF g cfg fuel st x = Except.ok st' → MemLe st' s →
    markF g cfg fuel s x = Except.ok s := by
  intro fuel
  induction fuel with
  | zero => intro st x st' s h _; exact Except.noConfusion h
  | succ fuel ih =>
    intro st x st' s h hle
    have h0 := h
    rw [markF] at h ⊢
    by_cases hc : skelCond cfg
    · rw [if_pos hc] at h ⊢
      by_cases hni : isNiNode g x
      · rw [if_neg (not_not_intro hni)] at h ⊢
        have hk1 : keyMem (if keyMem st (skelrootOf g cfg x) then st
            else insertKey st (skelrootOf g cfg x)) (skelrootOf g cfg x) := by
          split
          · next hkk => exact hkk
          · exact keyMem_insertKey.mpr (Or.inr (Eq.refl _))
        have hks : keyMem s (skelrootOf g cfg x) :=
          hle.1 _ ((popLoop_keys _ _ h _).mpr hk1)
        rw [if_pos hks]
        exact populate_again h hle
      · rw [if_pos hni] at h
        exact Except.noConfusion h
    · rw [if_neg hc] at h ⊢
      by_cases hgi : geoInitCond cfg st
      · rw [if_pos hgi] at h
        cases hgeo : geoInit g cfg st x with
        | error e => rw [hgeo] at h; exact Except.noConfusion h
        | ok st1 =>
          rw [hgeo] at h
          simp only at h
          cases hscan : skinScan g cfg (decide (geoInitCond cfg st)) st1 x with
          | error e => rw [hscan] at h; exact Except.noConfusion h
          | ok st2 =>
            rw [hscan] at h
            simp only at h
            rw [hgi.2] at hgeo
            rcases geoInit_keyMem hgeo with ⟨r0, hkr0⟩
            have hk_stb : keyMem st' r0 :=
              (runChildren_memle (g.children x) st2
                (fun c _ s1 s2 hh => markF_memle fuel s1 c hh) h).1 r0
                ((skinScan_memle hscan).1 r0 hkr0)
            have hks : keyMem s r0 := hle.1 r0 hk_stb
            have hgi_s : ¬ geoInitCond cfg s := by
              intro hcc
              rw [hcc.2] at hks
              exact keyMem_nil_false hks
            rw [if_neg hgi_s]
            simp only
            have hle2 : MemLe st2 s :=
              (runChildren_memle (g.children x) st2
                (fun c _ s1 s2 hh => markF_memle fuel s1 c hh) h).trans hle
            rw [skinScan_again hscan hle2]
            simp only
            exact runChildren_again (g.children x) st2
              (fun c _ s1 s2 hh => markF_memle fuel s1 c hh)
              (fun c _ s1 s2 t hh hlee => ih s1 c hh hlee) h hle
      · rw [if_neg hgi] at h
        simp only at h
        cases hscan : skinScan g cfg (decide (geoInitCond cfg st)) st x with
        | error e => rw [hscan] at h; exact Except.noConfusion h
        | ok st2 =>
          rw [hscan] at h
          simp only at h
          have hgi_s : ¬ geoInitCond cfg s := by
            intro hcc
            have hpa : ¬ (cfg.policy = Policy.geometryOnly ∧ st = []) := hgi
            have hstne : st ≠ [] := by
              intro hnil
              exact hpa ⟨hcc.1, hnil⟩
            rcases keyMem_of_ne_nil hstne with ⟨r0, hkr0⟩
            have hks : keyMem s r0 :=
              hle.1 r0 ((markF_memle (fuel + 1) st x h0).1 r0 hkr0)
            rw [hcc.2] at hks
            exact keyMem_nil_false hks
          rw [if_neg hgi_s]
          simp only
          have hle2 : MemLe st2 s :=
            (runChildren_memle (g.children x) st2
              (fun c _ s1 s2 hh => markF_memle fuel s1 c hh) h).trans hle
          rw [skinScan_again hscan hle2]
          simp only
          exact runChildren_again (g.children x) st2
            (fun c _ s1 s2 hh => markF_memle fuel s1 c hh)
            (fun c _ s1 s2 t hh hlee => ih s1 c hh hlee) h hle

theorem mark_memle {st : St n} {x : Fin n} {st' : St n}
    (h : mark g cfg st x = Except.ok st') : MemLe st st' :=
  markF_memle n st x h

theorem mark_inv {st : St n} {x : Fin n} {st' : St n}
    (hInv : Inv g st) (h : mark g cfg st x = Except.ok st') : Inv g st' :=
  markF_inv n st x hInv h

theorem mark_nodupAll {st : St n} {x : Fin n} {st' : St n}
    (hpol : cfg.policy ≠ Policy.geometryOnly)
    (hnd : NodupAll st) (h : mark g cfg st x = Except.ok st') : NodupAll st' :=
  markF_nodupAll hpol n st x hnd h

theorem mark_again {st : St n} {x : Fin n} {st' s : St n}
    (h : mark g cfg st x = Except.ok st') (hle : MemLe st' s) :
    mark g cfg s x = Except.ok s :=
  markF_again n st x h hle

end MarkLemmas

/-! ## The skeleton branch in closed form -/

section SkeletonPath

variable {n : Nat} {g : Graph n} {cfg : Config}

theorem mark_skeleton_eq {st : St n} {x : Fin n} (hc : skelCond cfg)
    (hni : isNiNode g x) :
    mark g cfg st x =
      populate g
        (if keyMem st (skelrootOf g cfg x) then st
          else insertKey st (skelrootOf g cfg x))
        (skelrootOf g cfg x) := by
  unfold mark
  obtain ⟨m, rfl⟩ : ∃ m, n = m + 1 := ⟨n - 1, by have := x.pos; omega⟩
  rw [markF, if_pos hc, if_neg (not_not_intro hni)]

theorem mark_skeleton_err {st : St n} {x : Fin n} (hc : skelCond cfg)
    (hni : ¬ isNiNode g x) :
    mark g cfg st x = Except.error Err.rootNotNiNode := by
  unfold mark
  obtain ⟨m, rfl⟩ : ∃ m, n = m + 1 := ⟨n - 1, by have := x.pos; omega⟩
  rw [markF, if_pos hc, if_pos hni]

theorem single_of_map_fst {st : St n} {r : Fin n} (h : st.map Prod.fst = [r]) :
    ∃ bs, st = [(r, bs)] := by
  cases st with
  | nil => exact absurd h (by simp)
  | cons e rest =>
    cases rest with
    | nil =>
      refine ⟨e.2, ?_⟩
      have he : e.1 = r := by simpa using h
      rw [← he]
    | cons e2 rest2 => simp at h

theorem getB_single {r : Fin n} {bs : List (Fin n)} : getB [(r, bs)] r = bs := by
  rw [getB, if_pos (Eq.refl r)]

theorem treeF_congr {g g' : Graph n} (hch : g'.children = g.children) :
    ∀ (fuel : Nat) (x : Fin n), treeF g' fuel x = treeF g fuel x := by
  intro fuel
  induction fuel with
  | zero => intro x; rfl
  | succ fuel ih =>
    intro x
    rw [treeF, treeF, hch]
    apply congrArg
    apply flatMap_congr
    intro c _
    exact ih c

theorem popLoop_congr {g g' : Graph n} (hnt : g'.ntype = g.ntype)
    (hgr : g'.grouping = g.grouping) :
    ∀ (l : List (Fin n)) (st : St n) (r : Fin n),
    popLoop g' r st l = popLoop g r st l := by
  intro l
  induction l with
  | nil => intro st r; rw [popLoop, popLoop]
  | cons b rest ih =>
    intro st r
    have hntb : g'.ntype b = g.ntype b := by rw [hnt]
    have hgrb : g'.grouping b = g.grouping b := by rw [hgr]
    rw [popLoop, popLoop]
    by_cases hbr : b = r
    · rw [if_pos hbr, if_pos hbr, ih]
    · rw [if_neg hbr, if_neg hbr]
      by_cases hni : isNiNode g b
      · have hni' : isNiNode g' b := by unfold isNiNode; rw [hntb]; exact hni
        rw [if_neg (not_not_intro hni), if_neg (not_not_intro hni')]
        by_cases hlod : g.ntype b = NType.lodNode
        · rw [if_pos hlod, if_pos (hntb.trans hlod), ih]
        · rw [if_neg hlod, if_neg (fun hc => hlod (hntb.symm.trans hc))]
          by_cases hgrp : g.grouping b = true
          · rw [if_pos hgrp, if_pos (hgrb.trans hgrp), ih]
          · rw [if_neg hgrp, if_neg (fun hc => hgrp (hgrb.symm.trans hc))]
            by_cases hk : keyMem st r
            · rw [if_neg (not_not_intro hk), if_neg (not_not_intro hk)]
              by_cases hbm : b ∈ getB st r
              · rw [if_pos hbm, if_pos hbm, ih]
              · rw [if_neg hbm, if_neg hbm, ih]
            · rw [if_pos hk, if_pos hk]
      · have hni' : ¬ isNiNode g' b := fun hcc => by
          rw [isNiNode, hntb] at hcc
          exact hni hcc
        rw [if_pos hni, if_pos hni', ih]

end SkeletonPath

/-! ## Example scenes used by the counterexamples and witnesses -/

section ExampleScenes

/-- A three-node skeleton: a root `NiNode`, a LOD-selector child, and a plain
`NiNode` grandchild under the LOD node. -/
def exC1g : Graph 3 where
  ntype := fun i => if i = 1 then NType.lodNode else NType.niNode
  children := fun i => if i = 0 then [1] else if i = 1 then [2] else []
  parentOf := fun i => if i = 0 then none else if i = 1 then some 0 else some 1
  skin := fun _ => none
  grouping := fun _ => false
  nodeName := fun _ => ""
  children_gt := by decide
  consist := by decide

/-- A `SKELETON_ONLY` import run. -/
def exC1cfg : Config where
  policy := Policy.skeletonOnly
  version := 0
  basename := "x.nif"
  selectedName := ""
  selectedBoneNames := []
  boneNameToNif := id

/-- Nested armatures: root `NiNode` 0 with `NiNode` child 1 and grandchild 2,
and two skinned geometry blocks — one whose skin names 0 as skeleton root,
one whose skin names 1 — both referencing bone 2. -/
def exC2g : Graph 5 where
  ntype := fun i => if i.val ≤ 2 then NType.niNode else NType.triGeom
  children := fun i => if i = 0 then [1, 3, 4] else if i = 1 then [2] else []
  parentOf := fun i => if i = 0 then none else if i = 2 then some 1 else some 0
  skin := fun i =>
    if i = 3 then some ⟨0, [some 2]⟩ else if i = 4 then some ⟨1, [some 2]⟩ else none
  grouping := fun _ => false
  nodeName := fun _ => ""
  children_gt := by decide
  consist := by decide

/-- An `EVERYTHING` import run. -/
def exC2cfg : Config where
  policy := Policy.everything
  version := 0
  basename := "x.nif"
  selectedName := ""
  selectedBoneNames := []
  boneNameToNif := id

/-- The classification `exC2g` produces. -/
def exC2st : St 5 := [(0, [2, 1]), (1, [2])]

/-- A chain Root → P → B of named `NiNode`s for the `GEOMETRY_ONLY`
duplicate-registration scenario. -/
def exC3g : Graph 3 where
  ntype := fun _ => NType.niNode
  children := fun i => if i = 0 then [1] else if i = 1 then [2] else []
  parentOf := fun i => if i = 0 then none else if i = 1 then some 0 else some 1
  skin := fun _ => none
  grouping := fun _ => false
  nodeName := fun i => if i = 0 then "Root" else if i = 1 then "P" else "B"
  children_gt := by decide
  consist := by decide

/-- A `GEOMETRY_ONLY` run whose selected armature has bones named B and P,
the child listed before its parent. -/
def exC3cfg : Config where
  policy := Policy.geometryOnly
  version := 0
  basename := "x.nif"
  selectedName := "Root"
  selectedBoneNames := ["B", "P"]
  boneNameToNif := id

/-- A skinned geometry whose skin references bone 2 sitting under a
LOD-selector node 1. -/
def exC5g : Graph 4 where
  ntype := fun i => if i = 0 then NType.niNode else if i = 1 then NType.lodNode
    else if i = 2 then NType.niNode else NType.triGeom
  children := fun i => if i = 0 then [1, 3] else if i = 1 then [2] else []
  parentOf := fun i => if i = 0 then none else if i = 2 then some 1 else some 0
  skin := fun i => if i = 3 then some ⟨0, [some 2]⟩ else none
  grouping := fun _ => false
  nodeName := fun _ => ""
  children_gt := by decide
  consist := by decide

/-- An `EVERYTHING` import run (for the LOD counterexample). -/
def exC5cfg : Config where
  policy := Policy.everything
  version := 0
  basename := "x.nif"
  selectedName := ""
  selectedBoneNames := []
  boneNameToNif := id

/-- A `GEOMETRY_ONLY` scene whose armature is found, with a skinned geometry
block (node 2) whose skin names node 1 — not the supplied armature root 0 —
as its skeleton root. -/
def exC7g : Graph 3 where
  ntype := fun i => if i = 2 then NType.triGeom else NType.niNode
  children := fun i => if i = 0 then [1, 2] else []
  parentOf := fun i => if i = 0 then none else some 0
  skin := fun i => if i = 2 then some ⟨1, []⟩ else none
  grouping := fun _ => false
  nodeName := fun i => if i = 0 then "Arm" else if i = 1 then "B1" else "G"
  children_gt := by decide
  consist := by decide

/-- The `GEOMETRY_ONLY` run selecting the armature object named Arm with no
bones. -/
def exC7cfg : Config where
  policy := Policy.geometryOnly
  version := 0
  basename := "x.nif"
  selectedName := "Arm"
  selectedBoneNames := []
  boneNameToNif := id

/-- A root `NiNode` with one plain child that the host classifies as a
grouping container. -/
def exC9g : Graph 2 where
  ntype := fun _ => NType.niNode
  children := fun i => if i = 0 then [1] else []
  parentOf := fun i => if i = 0 then none else some 0
  skin := fun _ => none
  grouping := fun i => i = 1
  nodeName := fun _ => ""
  children_gt := by decide
  consist := by decide

/-- An `EVERYTHING` run on a legacy-version file whose basename lowercases to
`skeleton.nif`. -/
def exC9cfg : Config where
  policy := Policy.everything
  version := 0x14000005
  basename := "Skeleton.NIF"
  selectedName := ""
  selectedBoneNames := []
  boneNameToNif := id

end ExampleScenes

/-! ## Claims about the classifier -/

section ClassifierClaims

/-- C1 (counterexample): the claim as stated — after any classification pass,
every ancestor strictly between a registered bone and its root is also
registered — is false: under `SKELETON_ONLY`, tree population registers node
2 under root 0 but skips the LOD-selector node 1 sitting strictly between
them. -/
theorem c1_counterexample :
    mark exC1g exC1cfg [] 0 = Except.ok [(0, [2])] ∧
    (2 : Fin 3) ∈ getB [((0 : Fin 3), [(2 : Fin 3)])] 0 ∧
    (1 : Fin 3) ∈ between exC1g 2 0 ∧
    (1 : Fin 3) ∉ getB [((0 : Fin 3), [(2 : Fin 3)])] 0 := by decide

/-- C1 (amended): after any successful classification pass started on an
empty dictionary, every registered bone lies strictly below its root on the
parent chain, and every ancestor strictly between the bone and the root that
is a plain (non-LOD) `NiNode` the host does not classify as a grouping
container is registered under the same root.  (LOD-selector and grouping
ancestors may be skipped by tree population, which is what refutes the
unrestricted claim.) -/
theorem c1_tree_completion_amended {n : Nat} (g : Graph n) (cfg : Config)
    (root : Fin n) (st' : St n) (h : mark g cfg [] root = Except.ok st') :
    ∀ r b : Fin n, b ∈ getB st' r →
      r ∈ ancestors g b ∧
      ∀ a ∈ between g b r, g.ntype a = NType.niNode → g.grouping a = false →
        a ∈ getB st' r :=
  mark_inv Inv_nil h

/-- C1 (witness): the amended completeness theorem applied to the concrete
LOD scene at root 0 and bone 2. -/
theorem c1_tree_completion_witness :
    mark exC1g exC1cfg [] 0 = Except.ok [(0, [2])] ∧
    ((0 : Fin 3) ∈ ancestors exC1g 2 ∧
      ∀ a ∈ between exC1g 2 0,
        exC1g.ntype a = NType.niNode → exC1g.grouping a = false →
          a ∈ getB [((0 : Fin 3), [(2 : Fin 3)])] 0) :=
  ⟨by decide,
    c1_tree_completion_amended exC1g exC1cfg 0 [(0, [2])] (by decide) 0 2 (by decide)⟩

/-- C2 (counterexample): the claim as stated — no node is registered as a
bone under two different roots in one pass — is false: with nested skeleton
roots, two skins can register the same bone under both roots. -/
theorem c2_counterexample :
    mark exC2g exC2cfg [] 0 = Except.ok exC2st ∧
    (2 : Fin 5) ∈ getB exC2st 0 ∧
    (2 : Fin 5) ∈ getB exC2st 1 ∧
    (0 : Fin 5) ≠ (1 : Fin 5) := by decide

/-- C2 (amended): within one classification pass started on an empty
dictionary, a node can only be registered under two different armature roots
when one of those roots is a proper ancestor of the other (nested
armatures); roots on unrelated branches never share a bone. -/
theorem c2_partition_amended {n : Nat} (g : Graph n) (cfg : Config)
    (root : Fin n) (st' : St n) (h : mark g cfg [] root = Except.ok st')
    (r1 r2 b : Fin n) (h1 : b ∈ getB st' r1) (h2 : b ∈ getB st' r2)
    (hne : r1 ≠ r2) :
    r1 ∈ ancestors g r2 ∨ r2 ∈ ancestors g r1 := by
  have hInv := mark_inv Inv_nil h
  rcases ancestors_linear n b b.isLt r1 r2 (hInv r1 b h1).1 (hInv r2 b h2).1 with
    he | h' | h'
  · exact absurd he hne
  · exact Or.inl h'
  · exact Or.inr h'

/-- C2 (witness): the amended partition theorem applied to the nested-roots
scene, where bone 2 is registered under roots 0 and 1. -/
theorem c2_partition_witness :
    mark exC2g exC2cfg [] 0 = Except.ok exC2st ∧
    ((0 : Fin 5) ∈ ancestors exC2g 1 ∨ (1 : Fin 5) ∈ ancestors exC2g 0) :=
  ⟨by decide,
    c2_partition_amended exC2g exC2cfg 0 exC2st (by decide) 0 1 2
      (by decide) (by decide) (by decide)⟩

/-- C3 (counterexample): the claim as stated includes that no bone appears
twice in any root's ordered bone collection; under `GEOMETRY_ONLY` the
identification loop appends a name-matched block without a membership guard,
so a parent already registered by tree completion is appended a second
time. -/
theorem c3_counterexample :
    mark exC3g exC3cfg [] 0 = Except.ok [(0, [2, 1, 1])] ∧
    ¬ (getB [((0 : Fin 3), [2, 1, 1])] 0).Nodup := by decide

/-- C3 (amended): classification is idempotent — re-running the pass on its
own successful result changes nothing — and under every policy other than
`GEOMETRY_ONLY` (whose identification loop appends without a membership
guard) no bone appears twice in any root's ordered collection. -/
theorem c3_idempotent_amended {n : Nat} (g : Graph n) (cfg : Config)
    (root : Fin n) (st' : St n) (h : mark g cfg [] root = Except.ok st') :
    mark g cfg st' root = Except.ok st' ∧
      (cfg.policy ≠ Policy.geometryOnly → ∀ r : Fin n, (getB st' r).Nodup) :=
  ⟨mark_again h MemLe.rfl, fun hpol r => mark_nodupAll hpol NodupAll_nil h r⟩

/-- C3 (witness): idempotence and duplicate-freedom at the concrete
`EVERYTHING` scene. -/
theorem c3_idempotent_witness :
    mark exC2g exC2cfg [] 0 = Except.ok exC2st ∧
    (mark exC2g exC2cfg exC2st 0 = Except.ok exC2st ∧
      (exC2cfg.policy ≠ Policy.geometryOnly →
        ∀ r : Fin 5, (getB exC2st r).Nodup)) :=
  ⟨by decide, c3_idempotent_amended exC2g exC2cfg 0 exC2st (by decide)⟩

/-- C5 (counterexample): the claim as stated — LOD-selector nodes never
appear in any bone collection, even nested inside a skeleton subtree — is
false: `complete_bone_tree` registers the parent chain of a skin-referenced
bone without any type filter, so a LOD ancestor of a skin bone is
registered. -/
theorem c5_counterexample :
    mark exC5g exC5cfg [] 0 = Except.ok [(0, [2, 1])] ∧
    exC5g.ntype 1 = NType.lodNode ∧
    (1 : Fin 4) ∈ getB [((0 : Fin 4), [2, 1])] 0 := by decide

/-- C5 (amended): under the `SKELETON_ONLY` policy (where bones enter only
through tree population, which filters LOD-selector nodes) no LOD-selector
node is ever registered as a bone; under the skin-driven policies tree
completion can still register a LOD ancestor of a skin-referenced bone,
which is what refutes the unrestricted claim. -/
theorem c5_lod_amended {n : Nat} (g : Graph n) (cfg : Config)
    (root : Fin n) (st' : St n) (hpol : cfg.policy = Policy.skeletonOnly)
    (h : mark g cfg [] root = Except.ok st') :
    ∀ r b : Fin n, b ∈ getB st' r → g.ntype b ≠ NType.lodNode := by
  have hc : skelCond cfg := Or.inl hpol
  by_cases hni : isNiNode g root
  · rw [mark_skeleton_eq hc hni] at h
    have hins : (if keyMem ([] : St n) (skelrootOf g cfg root) then ([] : St n)
        else insertKey [] (skelrootOf g cfg root)) =
        [(skelrootOf g cfg root, [])] := by
      rw [if_neg keyMem_nil_false, insertKey]
      rfl
    rw [hins] at h
    intro r b hb
    by_cases hr : r = skelrootOf g cfg root
    · subst hr
      rcases popLoop_new (tree g (skelrootOf g cfg root))
        [(skelrootOf g cfg root, [])] h b hb with h1 | ⟨_, _, hnt, _⟩
      · rw [getB_single] at h1
        exact absurd h1 (List.not_mem_nil b)
      · rw [hnt]
        intro hcon
        exact NType.noConfusion hcon
    · rw [popLoop_getB_ne (tree g (skelrootOf g cfg root)) _ h r hr,
        getB_single_nil] at hb
      exact absurd hb (List.not_mem_nil b)
  · rw [mark_skeleton_err hc hni] at h
    exact Except.noConfusion h

/-- C5 (witness): the amended LOD-exclusion theorem applied to the
`SKELETON_ONLY` LOD scene at the registered bone 2. -/
theorem c5_lod_witness :
    exC1cfg.policy = Policy.skeletonOnly ∧
    mark exC1g exC1cfg [] 0 = Except.ok [(0, [2])] ∧
    exC1g.ntype 2 ≠ NType.lodNode :=
  ⟨by decide, by decide,
    c5_lod_amended exC1g exC1cfg 0 [(0, [2])] (by decide) (by decide) 0 2 (by decide)⟩

/-- C7 (code evaluated at the failing input): under `GEOMETRY_ONLY` with the
selected armature found at the graph root, a skinned geometry block deeper
in the graph whose skin names a different skeleton root makes the embedded
pass fail with the unbound-local crash (`b_armature_obj` is a local of the
outermost invocation only, and the incompatible-skeleton message is
formatted in a recursive invocation), not with the intended
`NifError`/StructureError. -/
theorem c7_unboundlocal_eval :
    mark exC7g exC7cfg [] 0 = Except.error Err.nameError ∧
    Err.nameError.isStructureError = false := by decide

/-- C9 (counterexample): the claim as stated — on the version-triggered
skeleton path every reachable plain-transform node is registered as a bone —
is false: a reachable plain `NiNode` that the host classifies as a grouping
container is skipped by tree population. -/
theorem c9_counterexample :
    mark exC9g exC9cfg [] 0 = Except.ok [(0, [])] ∧
    exC9g.ntype 1 = NType.niNode ∧
    (1 : Fin 2) ∈ tree exC9g 0 ∧
    (1 : Fin 2) ∉ getB [((0 : Fin 2), ([] : List (Fin 2)))] 0 := by decide

/-- C9 (amended): whenever the file version is 0x14000005 or 0x14020007 and
the basename lowercases to `skeleton.nif` or `skeletonbeast.nif`, then —
regardless of the selected policy — classification from an empty dictionary
takes the skeleton path on a `NiNode` root: it produces a single armature
keyed by the root whose bones are exactly the reachable plain (non-LOD)
`NiNode`s other than the root that the host does not classify as grouping
containers, and the result is independent of every skin descriptor (it
depends only on the node types, children and grouping classification). -/
theorem c9_skeleton_path_amended {n : Nat} (g : Graph n) (cfg : Config)
    (root : Fin n)
    (hv : cfg.version = 0x14000005 ∨ cfg.version = 0x14020007)
    (hb : strLower cfg.basename = "skeleton.nif" ∨
      strLower cfg.basename = "skeletonbeast.nif")
    (hni : isNiNode g root) :
    ∃ bones : List (Fin n),
      mark g cfg [] root = Except.ok [(root, bones)] ∧
      (∀ b : Fin n, b ∈ bones ↔
        (b ∈ tree g root ∧ b ≠ root ∧ g.ntype b = NType.niNode ∧
          g.grouping b = false)) ∧
      (∀ g' : Graph n, g'.ntype = g.ntype → g'.children = g.children →
        g'.grouping = g.grouping →
        mark g' cfg [] root = Except.ok [(root, bones)]) := by
  have hc : skelCond cfg := Or.inr ⟨hv, hb⟩
  have hver : cfg.version ≠ 0x04000002 := by
    rcases hv with h | h <;> rw [h] <;> omega
  have hroot : skelrootOf g cfg root = root := by
    rw [skelrootOf, if_neg hver]
  have heq := @mark_skeleton_eq n g cfg [] root hc hni
  rw [hroot, if_neg keyMem_nil_false] at heq
  have hins : insertKey ([] : St n) root = [(root, [])] := by rw [insertKey]; rfl
  rw [hins] at heq
  rcases populate_ok (keyMem_single root) with ⟨st', hpop⟩
  have hfst : st'.map Prod.fst = [root] :=
    (popLoop_map_fst (tree g root) [(root, [])] hpop).trans (by simp)
  rcases single_of_map_fst hfst with ⟨bones, rfl⟩
  refine ⟨bones, heq.trans hpop, ?_, ?_⟩
  · intro b
    constructor
    · intro hbmem
      have hb' : b ∈ getB [(root, bones)] root := by rw [getB_single]; exact hbmem
      rcases popLoop_new (tree g root) [(root, [])] hpop b hb' with h1 | h1
      · rw [getB_single] at h1
        exact absurd h1 (List.not_mem_nil b)
      · exact h1
    · rintro ⟨h1, h2, h3, h4⟩
      have := popLoop_post (tree g root) [(root, [])] hpop b h1 h2 h3 h4
      rwa [getB_single] at this
  · intro g' hnt hch hgr
    have hni' : isNiNode g' root := by
      rw [isNiNode, hnt]
      exact hni
    have heq' := @mark_skeleton_eq n g' cfg [] root hc hni'
    have hroot' : skelrootOf g' cfg root = root := by
      rw [skelrootOf, if_neg hver]
    rw [hroot', if_neg keyMem_nil_false, hins] at heq'
    rw [heq']
    unfold populate
    rw [popLoop_congr hnt hgr]
    have htr : tree g' root = tree g root := treeF_congr hch n root
    rw [htr]
    exact hpop

/-- C9 (witness): the amended version-trigger theorem applied to the
concrete legacy-version scene with a grouping child. -/
theorem c9_skeleton_path_witness :
    (exC9cfg.version = 0x14000005 ∨ exC9cfg.version = 0x14020007) ∧
    (∃ bones : List (Fin 2),
      mark exC9g exC9cfg [] 0 = Except.ok [(0, bones)] ∧
      (∀ b : Fin 2, b ∈ bones ↔
        (b ∈ tree exC9g 0 ∧ b ≠ 0 ∧ exC9g.ntype b = NType.niNode ∧
          exC9g.grouping b = false)) ∧
      (∀ g' : Graph 2, g'.ntype = exC9g.ntype → g'.children = exC9g.children →
        g'.grouping = exC9g.grouping →
        mark g' exC9cfg [] 0 = Except.ok [(0, bones)])) :=
  ⟨by decide,
    c9_skeleton_path_amended exC9g exC9cfg 0 (by decide) (by decide) (by decide)⟩

/-- C10: `is_bone` is total on null input — a null reference returns
`False` without raising — and for a non-null node it returns `True` exactly
when the node appears in some root's bone collection; otherwise it returns
the falsy `None`, never `True`. -/
theorem c10_is_bone_spec {n : Nat} : ∀ (st : St n) (b : Fin n),
    is_bone st none = some false ∧
    (is_bone st (some b) = some true ↔ ∃ e ∈ st, b ∈ e.2) ∧
    (is_bone st (some b) = some true ∨ is_bone st (some b) = none) := by
  intro st b
  refine ⟨Eq.refl _, ?_, ?_⟩
  · rw [is_bone]
    by_cases hmem : ∃ e ∈ st, b ∈ e.2
    · rw [if_pos hmem]
      simp [hmem]
    · rw [if_neg hmem]
      simp [hmem]
  · rw [is_bone]
    split
    · exact Or.inl (Eq.refl _)
    · exact Or.inr (Eq.refl _)

end ClassifierClaims

end NifScene

namespace BoneLen

/-- A 3-component vector (`mathutils.Vector`); floating-point components are
modelled as real numbers. -/
structure Vec3 where
  x : ℝ
  y : ℝ
  z : ℝ

/-- `mathutils.Vector()`: the zero vector that accumulates child heads. -/
noncomputable def vzero : Vec3 := ⟨0, 0, 0⟩

/-- Componentwise vector addition (`childheads += b_child.head`). -/
noncomputable def vadd (u v : Vec3) : Vec3 := ⟨u.x + v.x, u.y + v.y, u.z + v.z⟩

/-- Componentwise vector difference (`b_edit_bone.head - childheads/len`). -/
noncomputable def vsub (u v : Vec3) : Vec3 := ⟨u.x - v.x, u.y - v.y, u.z - v.z⟩

/-- Division of a vector by a scalar (`childheads/len(...)`). -/
noncomputable def vdiv (u : Vec3) (k : ℝ) : Vec3 := ⟨u.x / k, u.y / k, u.z / k⟩

/-- `Vector.length`: the Euclidean norm. -/
noncomputable def vlen (u : Vec3) : ℝ := Real.sqrt (u.x ^ 2 + u.y ^ 2 + u.z ^ 2)

/-- An edit bone as `fix_bone_lengths` sees it, mirroring the spec's
`EditBoneGeometry`: head, tail, roll and length fields, plus the parent
reference as an index into the creation-ordered bone list (`import_bone`
creates a parent before its children, so a parent's index is smaller than
its child's). -/
structure EditBone where
  head : Vec3
  tail : Vec3
  roll : ℝ
  length : ℝ
  parent : Option Nat

/-- The parent index of the bone at index `j` (none when out of range). -/
def parentAt (a : List EditBone) (j : Nat) : Option Nat :=
  match a[j]? with
  | some b => b.parent
  | none => none

/-- The head of the bone at index `j`. -/
noncomputable def headAt (a : List EditBone) (j : Nat) : Vec3 :=
  match a[j]? with
  | some b => b.head
  | none => vzero

/-- The tail of the bone at index `j`. -/
noncomputable def tailAt (a : List EditBone) (j : Nat) : Vec3 :=
  match a[j]? with
  | some b => b.tail
  | none => vzero

/-- The roll of the bone at index `j`. -/
noncomputable def rollAt (a : List EditBone) (j : Nat) : ℝ :=
  match a[j]? with
  | some b => b.roll
  | none => 0

/-- The length of the bone at index `j`. -/
noncomputable def lengthAt (a : List EditBone) (j : Nat) : ℝ :=
  match a[j]? with
  | some b => b.length
  | none => 0

/-- `b_edit_bone.children`: the indices of the bones whose parent reference
is the bone at index `i`. -/
def childIdxs (a : List EditBone) (i : Nat) : List Nat :=
  (List.range a.length).filter (fun j => parentAt a j = some i)

/-- The accumulated sum of the children's heads (`childheads`). -/
noncomputable def sumChildHeads (a : List EditBone) (i : Nat) : Vec3 :=
  (childIdxs a i).foldl (fun acc j => vadd acc (headAt a j)) vzero

/-- One iteration of the `fix_bone_lengths` loop at index `i`: a root bone
(no parent) is left alone; a parented bone with children gets the distance
from its head to the mean of its children's heads (with the 0.25 fallback
below 0.01), and a parented bone without children gets its parent's current
length.  Only the `length` field is written. -/
noncomputable def step (a : List EditBone) (i : Nat) : List EditBone :=
  match a[i]? with
  | none => a
  | some b =>
    match b.parent with
    | none => a
    | some p =>
      let cs := childIdxs a i
      let len : ℝ :=
        if cs ≠ [] then
          let d := vlen (vsub b.head (vdiv (sumChildHeads a i) (cs.length : ℝ)))
          if d < 0.01 then 0.25 else d
        else lengthAt a p
      a.set i { b with length := len }

/-- The prefix of the pass covering the first `m` bones, in creation
order. -/
noncomputable def fixUpto (a : List EditBone) (m : Nat) : List EditBone :=
  (List.range m).foldl step a

/-- `Armature.fix_bone_lengths`: the loop over all edit bones in creation
order. -/
noncomputable def fix_bone_lengths (a : List EditBone) : List EditBone :=
  fixUpto a a.length

/-- The length C4 reads off the spec sentence: the mean over the direct
bone children of the distances from the bone's head to each child's head
(to be compared against the implementation, which measures the distance to
the mean of the children's heads instead). -/
noncomputable def meanChildDistance (a : List EditBone) (i : Nat) : ℝ :=
  ((childIdxs a i).map (fun j => vlen (vsub (headAt a i) (headAt a j)))).sum /
    ((childIdxs a i).length : ℝ)

/-! ### Lemmas about the pass -/

theorem getElem?_set_self_of_lt {α : Type _} (l : List α) (i : Nat) (v : α)
    (h : i < l.length) : (l.set i v)[i]? = some v := by
  rw [List.getElem?_set_self']
  simp [List.getElem?_eq_getElem h]

theorem step_eq_noget {a : List EditBone} {i : Nat} (hai : a[i]? = none) :
    step a i = a := by
  rw [step, hai]

theorem step_eq_root {a : List EditBone} {i : Nat} {b : EditBone}
    (hai : a[i]? = some b) (hbp : b.parent = none) : step a i = a := by
  rw [step, hai]
  simp only [hbp]

theorem step_eq_parent {a : List EditBone} {i : Nat} {b : EditBone} {p : Nat}
    (hai : a[i]? = some b) (hbp : b.parent = some p) :
    step a i = a.set i { b with length :=
      (if childIdxs a i ≠ [] then
        (if vlen (vsub b.head
            (vdiv (sumChildHeads a i) ((childIdxs a i).length : ℝ))) < 0.01 then 0.25
          else vlen (vsub b.head
            (vdiv (sumChildHeads a i) ((childIdxs a i).length : ℝ))))
      else lengthAt a p) } := by
  rw [step, hai]
  simp only [hbp]

theorem step_cases (a : List EditBone) (i : Nat) :
    step a i = a ∨
    ∃ b p, a[i]? = some b ∧ b.parent = some p ∧
      step a i = a.set i { b with length :=
        (if childIdxs a i ≠ [] then
          (if vlen (vsub b.head
              (vdiv (sumChildHeads a i) ((childIdxs a i).length : ℝ))) < 0.01 then 0.25
            else vlen (vsub b.head
              (vdiv (sumChildHeads a i) ((childIdxs a i).length : ℝ))))
        else lengthAt a p) } := by
  cases hai : a[i]? with
  | none => exact Or.inl (step_eq_noget hai)
  | some b =>
    cases hbp : b.parent with
    | none => exact Or.inl (step_eq_root hai hbp)
    | some p => exact Or.inr ⟨b, p, Eq.refl _, hbp, step_eq_parent hai hbp⟩

theorem getElem?_step_ne (a : List EditBone) (i j : Nat) (h : j ≠ i) :
    (step a i)[j]? = a[j]? := by
  rcases step_cases a i with hs | ⟨b, p, hai, hbp, hs⟩
  · rw [hs]
  · rw [hs]
    exact List.getElem?_set_ne (fun hh => h hh.symm)

theorem step_size (a : List EditBone) (i : Nat) : (step a i).length = a.length := by
  rcases step_cases a i with hs | ⟨b, p, hai, hbp, hs⟩
  · rw [hs]
  · rw [hs]
    simp

theorem getElem?_step_self {a : List EditBone} {i : Nat} {b : EditBone} {p : Nat}
    (hai : a[i]? = some b) (hbp : b.parent = some p) :
    (step a i)[i]? = some { b with length :=
      (if childIdxs a i ≠ [] then
        (if vlen (vsub b.head
            (vdiv (sumChildHeads a i) ((childIdxs a i).length : ℝ))) < 0.01 then 0.25
          else vlen (vsub b.head
            (vdiv (sumChildHeads a i) ((childIdxs a i).length : ℝ))))
      else lengthAt a p) } := by
  have hlt : i < a.length := by
    rcases List.getElem?_eq_some_iff.mp hai with ⟨hl, _⟩
    exact hl
  rw [step_eq_parent hai hbp]
  exact getElem?_set_self_of_lt a i _ hlt

theorem parentAt_step (a : List EditBone) (i j : Nat) :
    parentAt (step a i) j = parentAt a j := by
  by_cases hj : j = i
  · subst hj
    cases hai : a[j]? with
    | none => rw [parentAt, parentAt, step_eq_noget hai]
    | some b =>
      cases hbp : b.parent with
      | none => rw [parentAt, parentAt, step_eq_root hai hbp]
      | some p =>
        rw [parentAt, parentAt, getElem?_step_self hai hbp, hai]
  · rw [parentAt, parentAt, getElem?_step_ne a i j hj]

theorem headAt_step (a : List EditBone) (i j : Nat) :
    headAt (step a i) j = headAt a j := by
  by_cases hj : j = i
  · subst hj
    cases hai : a[j]? with
    | none => rw [headAt, headAt, step_eq_noget hai]
    | some b =>
      cases hbp : b.parent with
      | none => rw [headAt, headAt, step_eq_root hai hbp]
      | some p =>
        rw [headAt, headAt, getElem?_step_self hai hbp, hai]
  · rw [headAt, headAt, getElem?_step_ne a i j hj]

theorem tailAt_step (a : List EditBone) (i j : Nat) :
    tailAt (step a i) j = tailAt a j := by
  by_cases hj : j = i
  · subst hj
    cases hai : a[j]? with
    | none => rw [tailAt, tailAt, step_eq_noget hai]
    | some b =>
      cases hbp : b.parent with
      | none => rw [tailAt, tailAt, step_eq_root hai hbp]
      | some p =>
        rw [tailAt, tailAt, getElem?_step_self hai hbp, hai]
  · rw [tailAt, tailAt, getElem?_step_ne a i j hj]

theorem rollAt_step (a : List EditBone) (i j : Nat) :
    rollAt (step a i) j = rollAt a j := by
  by_cases hj : j = i
  · subst hj
    cases hai : a[j]? with
    | none => rw [rollAt, rollAt, step_eq_noget hai]
    | some b =>
      cases hbp : b.parent with
      | none => rw [rollAt, rollAt, step_eq_root hai hbp]
      | some p =>
        rw [rollAt, rollAt, getElem?_step_self hai hbp, hai]
  · rw [rollAt, rollAt, getElem?_step_ne a i j hj]

theorem lengthAt_step_ne (a : List EditBone) (i j : Nat) (h : j ≠ i) :
    lengthAt (step a i) j = lengthAt a j := by
  rw [lengthAt, lengthAt, getElem?_step_ne a i j h]

theorem lengthAt_step_noparent (a : List EditBone) (i j : Nat)
    (h : parentAt a j = none) : lengthAt (step a i) j = lengthAt a j := by
  by_cases hj : j = i
  · subst hj
    cases hai : a[j]? with
    | none => rw [step_eq_noget hai]
    | some b =>
      have hbp : b.parent = none := by
        rw [parentAt, hai] at h
        exact h
      rw [step_eq_root hai hbp]
  · exact lengthAt_step_ne a i j hj

theorem childIdxs_step (a : List EditBone) (i k : Nat) :
    childIdxs (step a i) k = childIdxs a k := by
  rw [childIdxs, childIdxs, step_size]
  apply List.filter_congr
  intro j _
  rw [parentAt_step]

theorem foldl_vadd_headAt_congr (a a' : List EditBone)
    (hhead : ∀ j, headAt a' j = headAt a j) :
    ∀ (l : List Nat) (acc : Vec3),
    l.foldl (fun acc j => vadd acc (headAt a' j)) acc =
      l.foldl (fun acc j => vadd acc (headAt a j)) acc := by
  intro l
  induction l with
  | nil => intro acc; rfl
  | cons j rest ih =>
    intro acc
    rw [List.foldl_cons, List.foldl_cons, hhead j, ih]

theorem sumChildHeads_step (a : List EditBone) (i k : Nat) :
    sumChildHeads (step a i) k = sumChildHeads a k := by
  rw [sumChildHeads, sumChildHeads, childIdxs_step]
  exact foldl_vadd_headAt_congr a (step a i) (fun j => headAt_step a i j) _ _

theorem fixUpto_zero (a : List EditBone) : fixUpto a 0 = a := by
  rw [fixUpto]
  rfl

theorem fixUpto_succ (a : List EditBone) (m : Nat) :
    fixUpto a (m + 1) = step (fixUpto a m) m := by
  rw [fixUpto, fixUpto, List.range_succ m, List.foldl_append]
  rfl

theorem fixUpto_size (a : List EditBone) : ∀ m, (fixUpto a m).length = a.length := by
  intro m
  induction m with
  | zero => rw [fixUpto_zero]
  | succ m ih => rw [fixUpto_succ, step_size, ih]

theorem parentAt_fixUpto (a : List EditBone) (j : Nat) :
    ∀ m, parentAt (fixUpto a m) j = parentAt a j := by
  intro m
  induction m with
  | zero => rw [fixUpto_zero]
  | succ m ih => rw [fixUpto_succ, parentAt_step, ih]

theorem headAt_fixUpto (a : List EditBone) (j : Nat) :
    ∀ m, headAt (fixUpto a m) j = headAt a j := by
  intro m
  induction m with
  | zero => rw [fixUpto_zero]
  | succ m ih => rw [fixUpto_succ, headAt_step, ih]

theorem tailAt_fixUpto (a : List EditBone) (j : Nat) :
    ∀ m, tailAt (fixUpto a m) j = tailAt a j := by
  intro m
  induction m with
  | zero => rw [fixUpto_zero]
  | succ m ih => rw [fixUpto_succ, tailAt_step, ih]

theorem rollAt_fixUpto (a : List EditBone) (j : Nat) :
    ∀ m, rollAt (fixUpto a m) j = rollAt a j := by
  intro m
  induction m with
  | zero => rw [fixUpto_zero]
  | succ m ih => rw [fixUpto_succ, rollAt_step, ih]

theorem lengthAt_fixUpto_noparent (a : List EditBone) (j : Nat)
    (h : parentAt a j = none) :
    ∀ m, lengthAt (fixUpto a m) j = lengthAt a j := by
  intro m
  induction m with
  | zero => rw [fixUpto_zero]
  | succ m ih =>
    rw [fixUpto_succ,
      lengthAt_step_noparent _ _ _ (by rw [parentAt_fixUpto]; exact h), ih]

theorem childIdxs_fixUpto (a : List EditBone) (k : Nat) :
    ∀ m, childIdxs (fixUpto a m) k = childIdxs a k := by
  intro m
  induction m with
  | zero => rw [fixUpto_zero]
  | succ m ih => rw [fixUpto_succ, childIdxs_step, ih]

theorem sumChildHeads_fixUpto (a : List EditBone) (k : Nat) :
    ∀ m, sumChildHeads (fixUpto a m) k = sumChildHeads a k := by
  intro m
  induction m with
  | zero => rw [fixUpto_zero]
  | succ m ih => rw [fixUpto_succ, sumChildHeads_step, ih]

theorem getElem?_fixUpto_ge (a : List EditBone) (j : Nat) :
    ∀ m, m ≤ j → (fixUpto a m)[j]? = a[j]? := by
  intro m
  induction m with
  | zero => intro _; rw [fixUpto_zero]
  | succ m ih =>
    intro hmj
    rw [fixUpto_succ, getElem?_step_ne _ _ _ (by omega), ih (by omega)]

theorem getElem?_fixUpto_stable (a : List EditBone) (j m : Nat) (h1 : j < m) :
    ∀ m', m ≤ m' → (fixUpto a m')[j]? = (fixUpto a m)[j]? := by
  intro m'
  induction m' with
  | zero =>
    intro hm0
    rw [Nat.le_zero.mp hm0]
  | succ m' ih =>
    intro hmm
    by_cases heq : m = m' + 1
    · rw [heq]
    · rw [fixUpto_succ, getElem?_step_ne _ _ _ (by omega), ih (by omega)]

/-- The central computation lemma: the final length of a parented bone. -/
theorem lengthAt_fix (a : List EditBone) (i p : Nat) (hi : i < a.length)
    (hp : parentAt a i = some p) :
    lengthAt (fix_bone_lengths a) i =
      (if childIdxs a i ≠ [] then
        (if vlen (vsub (headAt a i)
            (vdiv (sumChildHeads a i) ((childIdxs a i).length : ℝ))) < 0.01 then 0.25
          else vlen (vsub (headAt a i)
            (vdiv (sumChildHeads a i) ((childIdxs a i).length : ℝ))))
      else lengthAt (fixUpto a i) p) := by
  obtain ⟨b0, hb0⟩ : ∃ b0, a[i]? = some b0 := by
    rw [parentAt] at hp
    cases hai : a[i]? with
    | none => rw [hai] at hp; exact Option.noConfusion hp
    | some b => exact ⟨b, Eq.refl _⟩
  have hbp : b0.parent = some p := by
    rw [parentAt, hb0] at hp
    exact hp
  have hgetA : (fixUpto a i)[i]? = some b0 := by
    rw [getElem?_fixUpto_ge a i i (Nat.le_refl i), hb0]
  have hhead : b0.head = headAt a i := by
    rw [headAt, hb0]
  have hstep : lengthAt (step (fixUpto a i) i) i =
      (if childIdxs a i ≠ [] then
        (if vlen (vsub (headAt a i)
            (vdiv (sumChildHeads a i) ((childIdxs a i).length : ℝ))) < 0.01 then 0.25
          else vlen (vsub (headAt a i)
            (vdiv (sumChildHeads a i) ((childIdxs a i).length : ℝ))))
      else lengthAt (fixUpto a i) p) := by
    rw [lengthAt, getElem?_step_self hgetA hbp]
    simp only
    rw [childIdxs_fixUpto, sumChildHeads_fixUpto, hhead]
  have hfinal : (fix_bone_lengths a)[i]? = (step (fixUpto a i) i)[i]? := by
    rw [fix_bone_lengths, ← fixUpto_succ]
    exact getElem?_fixUpto_stable a i (i + 1) (by omega) a.length hi
  rw [lengthAt, hfinal, ← lengthAt, hstep]

/-! ### Claims about the length-inference pass -/

/-- The four-bone scene refuting C4's reading: an internal bone (index 1)
with two children whose heads lie symmetrically about its own head, so the
distance to the mean of the child heads is 0 while the mean of the
distances to the child heads is 1. -/
noncomputable def exC4 : List EditBone :=
  [⟨⟨0, 0, 0⟩, ⟨0, 1, 0⟩, 0, 1, none⟩,
    ⟨⟨0, 0, 0⟩, ⟨0, 1, 0⟩, 0, 1, some 0⟩,
    ⟨⟨1, 0, 0⟩, ⟨1, 1, 0⟩, 0, 1, some 1⟩,
    ⟨⟨-1, 0, 0⟩, ⟨-1, 1, 0⟩, 0, 1, some 1⟩]

theorem exC4_childIdxs : childIdxs exC4 1 = [2, 3] := by decide

theorem exC4_dist_zero :
    vlen (vsub (headAt exC4 1)
      (vdiv (sumChildHeads exC4 1) ((childIdxs exC4 1).length : ℝ))) = 0 := by
  rw [sumChildHeads, exC4_childIdxs]
  simp only [List.foldl_cons, List.foldl_nil, List.length_cons, List.length_nil,
    headAt, exC4, vzero, vadd, vsub, vdiv, vlen]
  norm_num

/-- C4 (counterexample): the claim as stated — the inferred length is the
mean of the distances from the bone's head to its children's heads
(falling back to 0.25 below 0.01) — is false: the implementation measures
the single distance from the head to the mean of the children's heads, and
the two quantities disagree on symmetric children. -/
theorem c4_counterexample :
    lengthAt (fix_bone_lengths exC4) 1 = 0.25 ∧
    (if meanChildDistance exC4 1 < 0.01 then (0.25 : ℝ)
      else meanChildDistance exC4 1) = 1 ∧
    (0.25 : ℝ) ≠ 1 := by
  have hmean : meanChildDistance exC4 1 = 1 := by
    rw [meanChildDistance, exC4_childIdxs]
    simp only [List.map_cons, List.map_nil, List.sum_cons, List.sum_nil,
      List.length_cons, List.length_nil, headAt, exC4, vsub, vlen]
    norm_num
  refine ⟨?_, ?_, by norm_num⟩
  · rw [lengthAt_fix exC4 1 0 (by decide) (by decide),
      if_pos (by rw [exC4_childIdxs]; exact fun hc => List.noConfusion hc),
      if_pos (by rw [exC4_dist_zero]; norm_num)]
  · rw [if_neg (by rw [hmean]; norm_num), hmean]

/-- C4 (amended): for every bone with a registered parent and at least one
direct bone child, the pass sets its length to the Euclidean distance from
the bone's own head to the mean (centroid) of the heads of its direct bone
children — not the mean of the individual distances — and when that
distance is below 0.01 units the length is set to exactly 0.25 units. -/
theorem c4_internal_length_amended (a : List EditBone) (i p : Nat)
    (hi : i < a.length) (hp : parentAt a i = some p)
    (hcs : childIdxs a i ≠ []) :
    lengthAt (fix_bone_lengths a) i =
      (if vlen (vsub (headAt a i)
          (vdiv (sumChildHeads a i) ((childIdxs a i).length : ℝ))) < 0.01 then 0.25
        else vlen (vsub (headAt a i)
          (vdiv (sumChildHeads a i) ((childIdxs a i).length : ℝ)))) := by
  rw [lengthAt_fix a i p hi hp, if_pos hcs]

/-- C4 (witness): the amended length formula applied to the concrete
symmetric-children scene at bone 1. -/
theorem c4_internal_length_witness :
    (1 < exC4.length) ∧ parentAt exC4 1 = some 0 ∧ childIdxs exC4 1 ≠ [] ∧
    lengthAt (fix_bone_lengths exC4) 1 =
      (if vlen (vsub (headAt exC4 1)
          (vdiv (sumChildHeads exC4 1) ((childIdxs exC4 1).length : ℝ))) < 0.01 then 0.25
        else vlen (vsub (headAt exC4 1)
          (vdiv (sumChildHeads exC4 1) ((childIdxs exC4 1).length : ℝ)))) :=
  ⟨by decide, by decide, by decide,
    c4_internal_length_amended exC4 1 0 (by decide) (by decide) (by decide)⟩

/-- C6: a bone with a registered parent and no bone children inherits its
parent's already-computed length exactly (the parent is created before the
child, so its own length has been written by the time the child's iteration
reads it, and later iterations never touch it again). -/
theorem c6_leaf_inherits (a : List EditBone) (i p : Nat) (hi : i < a.length)
    (hp : parentAt a i = some p) (hpi : p < i) (hcs : childIdxs a i = []) :
    lengthAt (fix_bone_lengths a) i = lengthAt (fix_bone_lengths a) p := by
  rw [lengthAt_fix a i p hi hp, if_neg (not_not_intro hcs)]
  rw [lengthAt, lengthAt, fix_bone_lengths,
    getElem?_fixUpto_stable a p (p + 1) (by omega) i (by omega),
    getElem?_fixUpto_stable a p (p + 1) (by omega) a.length (by omega)]

/-- C6 (witness): leaf bone 2 of the concrete scene inherits the final
length of its parent, bone 1. -/
theorem c6_leaf_inherits_witness :
    (2 < exC4.length) ∧ parentAt exC4 2 = some 1 ∧ (1 < 2) ∧
    childIdxs exC4 2 = [] ∧
    lengthAt (fix_bone_lengths exC4) 2 = lengthAt (fix_bone_lengths exC4) 1 :=
  ⟨by decide, by decide, by decide, by decide,
    c6_leaf_inherits exC4 2 1 (by decide) (by decide) (by decide) (by decide)⟩

/-- C8: the length-inference pass is a frame over everything but lengths of
parented bones — every bone's head, tail and roll are left unchanged, and a
bone with no parent keeps its caller-supplied length. -/
theorem c8_frame (a : List EditBone) (j : Nat) :
    headAt (fix_bone_lengths a) j = headAt a j ∧
    tailAt (fix_bone_lengths a) j = tailAt a j ∧
    rollAt (fix_bone_lengths a) j = rollAt a j ∧
    (parentAt a j = none → lengthAt (fix_bone_lengths a) j = lengthAt a j) :=
  ⟨headAt_fixUpto a j a.length, tailAt_fixUpto a j a.length,
    rollAt_fixUpto a j a.length,
    fun h => lengthAt_fixUpto_noparent a j h a.length⟩

/-- C8 (witness): the frame property at the concrete scene's root bone 0
(whose length stays at the caller-supplied default 1). -/
theorem c8_frame_witness :
    headAt (fix_bone_lengths exC4) 0 = headAt exC4 0 ∧
    tailAt (fix_bone_lengths exC4) 0 = tailAt exC4 0 ∧
    rollAt (fix_bone_lengths exC4) 0 = rollAt exC4 0 ∧
    (parentAt exC4 0 = none →
      lengthAt (fix_bone_lengths exC4) 0 = lengthAt exC4 0) :=
  c8_frame exC4 0

end BoneLen
